import Mathlib

/-
Verification of the factstoredb storage engine (Go) against its
natural-language specification.

The development shallow-embeds the Go sources:
  * `atom_marshaller.go` — the constant/atom JSON codec (`constantJSON`,
    `atomJSON`, `unmarshalAtom`);
  * `factstore.go` — hashing (`szudzikElegantPair`, `atomToRowForInsert`,
    `getSortedConstants`), the store operations (`Add`, `Contains`,
    `Remove`, `Merge`, `batchInsertFacts`, `WriteTo`, `ReadFrom`,
    `ListPredicates`, `Close`) and the key helpers (`predicateToKey`,
    `keyToPredicate`);
  * the dialect files — the SQL statements, embedded as their semantics
    over a list-of-rows model of the single `facts` table.

The Go code manipulates JSON through the `jsontext` streaming
encoder/decoder, so the codec is embedded at the token level
(`JToken`); the byte rendering of a token stream (`render`) models
jsontext's compact output and is used for the byte-identity claims.

External collaborator: the Mangle `ast` package (value model).  Its
`Constant` type is mirrored structurally; its per-value `Hash` and the
numeric type tags are not part of this repository and are modelled from
the specification (doc comments on `constHash` and `typeTag` say so).
IEEE-754 float constants are outside the embedding; no claim settled
below depends on a float value.
-/

namespace FactStoreDB

/-- Tokens of the streaming JSON layer, mirroring the `jsontext` token
kinds used by the source (`BeginArray`, `EndArray`, `BeginObject`,
`EndObject`, `String`, `Int`, null).  Float tokens are not modelled. -/
inductive JToken where
  | beginArray
  | endArray
  | beginObject
  | endObject
  | jnull
  | jstr (s : String)
  | jint (n : Int)
deriving DecidableEq, Repr

/-- The Mangle constant value model, mirrored structurally from
`ast.Constant` as the specification describes it (§3): names, strings,
byte strings, 64-bit integers, lists, pairs, maps and structs.  Map and
struct entries are carried as a list in the order the in-memory value
yields them (`MapValues` / `StructValues` iteration order); the
specification notes (§9) that the source keys these maps by address, so
no canonical in-memory order exists.  The Float variant is outside the
embedding. -/
inductive Constant where
  | name (sym : String)
  | str (s : String)
  | bytes (bs : List Nat)
  | num (n : Int)
  | list (xs : List Constant)
  | pair (fst snd : Constant)
  | map (entries : List (Constant × Constant))
  | strct (entries : List (Constant × Constant))

/-- Decimal digits of a natural number, most significant first, with a
fuel argument for structural termination; `natRepr` supplies enough. -/
def natDigitsF : Nat → Nat → List Char
  | 0, _ => []
  | fuel + 1, n =>
    if n < 10 then [Char.ofNat (48 + n)]
    else natDigitsF fuel (n / 10) ++ [Char.ofNat (48 + n % 10)]

/-- Decimal representation of a natural number (models `strconv.Itoa`
on non-negative values). -/
def natRepr (n : Nat) : List Char := natDigitsF (n + 1) n

/-- Decimal representation of an integer (models the text produced by
`jsontext.Int` and `strconv.Itoa`). -/
def intRepr (n : Int) : List Char :=
  if n < 0 then '-' :: natRepr n.natAbs else natRepr n.toNat

/-- Lowercase hex digit character for a value below 16. -/
def hexDigitChar (n : Nat) : Char :=
  if n < 10 then Char.ofNat (48 + n) else Char.ofNat (87 + n)

/-- Lowercase hex encoding of a byte slice, two digits per byte; models
the Go `fmt.Sprintf("%x", bytes)` used by the marshaller. -/
def hexOfBytes (bs : List Nat) : List Char :=
  bs.flatMap fun b => [hexDigitChar (b / 16 % 16), hexDigitChar (b % 16)]

/-- Value of one hex digit character; both cases are accepted, as by the
`fmt.Sscanf("%02x")` used by the unmarshaller. -/
def hexCharVal (c : Char) : Option Nat :=
  if 48 ≤ c.toNat ∧ c.toNat ≤ 57 then some (c.toNat - 48)
  else if 97 ≤ c.toNat ∧ c.toNat ≤ 102 then some (c.toNat - 87)
  else if 65 ≤ c.toNat ∧ c.toNat ≤ 70 then some (c.toNat - 55)
  else none

/-- The whitespace table of package `fmt`'s scanner (`var space` in
fmt/scan.go), which `Sscanf` skips before reading an operand. -/
def fmtIsSpace (c : Char) : Bool :=
  decide ((9 ≤ c.toNat ∧ c.toNat ≤ 13) ∨ c.toNat = 32 ∨ c.toNat = 133 ∨
    c.toNat = 160 ∨ c.toNat = 5760 ∨ (8192 ≤ c.toNat ∧ c.toNat ≤ 8202) ∨
    (8232 ≤ c.toNat ∧ c.toNat ≤ 8233) ∨ c.toNat = 8239 ∨ c.toNat = 8287 ∨
    c.toNat = 12288)

/-- The scanner's `SkipSpace` before a `%x` operand of `Sscanf`: skip
`fmt` whitespace, where a newline is an error (`Sscanf` does not treat
newlines as spaces; a `\r` directly before the `\n` is skipped first
and the `\n` still errors). -/
def skipSpaceFmt : List Char → Option (List Char)
  | [] => some []
  | c :: rest =>
    if c = '\n' then none
    else if fmtIsSpace c then skipSpaceFmt rest
    else some (c :: rest)

/-- One `fmt.Sscanf(window, "%02x", &b)` call of the decoder's loop on
a two-character window: skip leading whitespace, then read a maximal
run of hex digits — at least one is required, and the `2` of `%02x` is
only a maximum, which a two-character window can never exceed.  A
window whose first character is a hex digit and second is not therefore
succeeds with the one-digit value. -/
def sscanfHex02x (w : List Char) : Option Nat :=
  match skipSpaceFmt w with
  | none => none
  | some [] => none
  | some (c1 :: rest) =>
    match hexCharVal c1 with
    | none => none
    | some d1 =>
      match rest with
      | [] => some d1
      | c2 :: _ =>
        match hexCharVal c2 with
        | some d2 => some (16 * d1 + d2)
        | none => some d1

/-- Parse a hex string two characters at a time into bytes, each window
through the `Sscanf` `%02x` semantics above.  An odd-length tail makes
the slice expression `hexStr[i:i+2]` of the Go source panic — the
embedding folds the crash into the error case. -/
def hexPairsParse : List Char → Option (List Nat)
  | [] => some []
  | [_] => none
  | c1 :: c2 :: rest => do
    let b ← sscanfHex02x [c1, c2]
    let tl ← hexPairsParse rest
    pure (b :: tl)

/-- Prefix test on the character lists of two strings (the Go
`strings.HasPrefix` / `str[:2] == …` comparisons). -/
def strHasPrefix (s pre : String) : Bool := pre.data.isPrefixOf s.data

/-- Name validation, modelled from the spec: `ast.Name` (external Mangle
code) accepts a non-empty path-like symbol beginning with `/` whose
characters are drawn from the name alphabet. -/
def nameChar (c : Char) : Bool :=
  (97 ≤ c.toNat ∧ c.toNat ≤ 122) ∨ (65 ≤ c.toNat ∧ c.toNat ≤ 90) ∨
  (48 ≤ c.toNat ∧ c.toNat ≤ 57) ∨ c = '/' ∨ c = '_' ∨ c = '.' ∨ c = '-'

/-- Whether a string is accepted by `ast.Name` (modelled from the spec). -/
def validName (s : String) : Bool :=
  strHasPrefix s "/" ∧ s.data.length > 1 ∧ s.data.all nameChar

/-- The leading tokens of the object encoding the function application
form used for pairs, maps and structs:
begin-object, "function", begin-object, "symbol", the symbol, "arity",
the arity, end-object, "args", begin-array. -/
def fnHeader (sym : String) (arity : Int) : List JToken :=
  [.beginObject, .jstr "function", .beginObject, .jstr "symbol", .jstr sym,
   .jstr "arity", .jint arity, .endObject, .jstr "args", .beginArray]

mutual

/-- Token stream produced for one constant; embeds
`constantJSON.MarshalJSONTo` (atom_marshaller.go).  Names and strings
become string tokens; bytes become the string `#b` followed by lowercase
hex; numbers become integer tokens; lists become arrays; pairs, maps and
structs become the `function`/`args` object with symbols `fn:pair`,
`fn:map`, `fn:struct`, the entries of a map or struct being written in
the order the in-memory value yields them. -/
def marshalConstant : Constant → List JToken
  | .name sym => [.jstr sym]
  | .str s => [.jstr s]
  | .bytes bs => [.jstr (String.mk ('#' :: 'b' :: hexOfBytes bs))]
  | .num n => [.jint n]
  | .list xs => .beginArray :: marshalConstList xs ++ [.endArray]
  | .pair a b =>
      fnHeader "fn:pair" 2 ++ (marshalConstant a ++ marshalConstant b)
        ++ [.endArray, .endObject]
  | .map es =>
      fnHeader "fn:map" (2 * es.length) ++ marshalEntries es
        ++ [.endArray, .endObject]
  | .strct es =>
      fnHeader "fn:struct" (2 * es.length) ++ marshalEntries es
        ++ [.endArray, .endObject]

/-- Token stream of a list of constants, in order. -/
def marshalConstList : List Constant → List JToken
  | [] => []
  | c :: cs => marshalConstant c ++ marshalConstList cs

/-- Token stream of map/struct entries, each key directly followed by
its value. -/
def marshalEntries : List (Constant × Constant) → List JToken
  | [] => []
  | (k, v) :: es => marshalConstant k ++ marshalConstant v ++ marshalEntries es

end

/-- JSON string escaping of one character, modelling jsontext's compact
output: quote and backslash get a backslash; control characters take
their common short escapes or a `\u00XX` escape; everything else is
verbatim. -/
def escapeChar (c : Char) : List Char :=
  if c = '"' then ['\\', '"']
  else if c = '\\' then ['\\', '\\']
  else if c = Char.ofNat 10 then ['\\', 'n']
  else if c = Char.ofNat 13 then ['\\', 'r']
  else if c = Char.ofNat 9 then ['\\', 't']
  else if c.toNat < 32 then
    ['\\', 'u', '0', '0', hexDigitChar (c.toNat / 16), hexDigitChar (c.toNat % 16)]
  else [c]

/-- Rendered text of a JSON string literal, quotes included. -/
def renderString (s : String) : List Char :=
  '"' :: s.data.flatMap escapeChar ++ ['"']

/-- Rendering state: for each open container, whether it is an object
and how many tokens were emitted inside it so far. -/
abbrev RFrame := Bool × Nat

/-- Separator owed before the next value token, given the stack of open
containers: commas between array elements and between object members,
a colon between an object key and its value. -/
def sepFor : List RFrame → List Char
  | [] => []
  | (isObj, k) :: _ =>
    if isObj then
      if k % 2 = 1 then [':'] else if k = 0 then [] else [',']
    else
      if k = 0 then [] else [',']

/-- Count one emitted token on the innermost open container. -/
def bumpTop : List RFrame → List RFrame
  | [] => []
  | (isObj, k) :: rest => (isObj, k + 1) :: rest

/-- Render a token stream to characters, inserting the separators the
jsontext encoder inserts; models the compact byte output written through
the counting writer (no added whitespace; the trailing newline jsontext
appends after a top-level value is not included, matching the
`strings.TrimSuffix(buf.String(), "\n")` the source applies where the
bytes are compared). -/
def renderTokens : List RFrame → List JToken → List Char
  | _, [] => []
  | st, t :: ts =>
    match t with
    | .beginArray => sepFor st ++ '[' :: renderTokens ((false, 0) :: bumpTop st) ts
    | .endArray => ']' :: renderTokens st.tail ts
    | .beginObject => sepFor st ++ '\x7b' :: renderTokens ((true, 0) :: bumpTop st) ts
    | .endObject => '\x7d' :: renderTokens st.tail ts
    | .jnull => sepFor st ++ 'n' :: 'u' :: 'l' :: 'l' :: renderTokens (bumpTop st) ts
    | .jstr s => sepFor st ++ renderString s ++ renderTokens (bumpTop st) ts
    | .jint n => sepFor st ++ intRepr n ++ renderTokens (bumpTop st) ts

/-- Byte rendering of a complete token stream. -/
def render (ts : List JToken) : String := String.mk (renderTokens [] ts)

/-- Rendered encoding of one constant: the bytes `MarshalJSONTo` writes
for it. -/
def renderConst (c : Constant) : String := render (marshalConstant c)

/-- The modulus of 64-bit unsigned arithmetic. -/
def M64 : Nat := 18446744073709551616

/-- Character codes of a string, standing for the bytes Go hashes; on
the ASCII strings all claims use, codes and UTF-8 bytes coincide. -/
def strBytes (s : String) : List Nat := s.data.map Char.toNat

/-- FNV-64a over a byte list, as `hash/fnv.New64a` computes it: start
from the offset basis, xor each byte in, multiply by the FNV prime,
all modulo 2^64. -/
def fnv64a (bs : List Nat) : Nat :=
  bs.foldl (fun h b => ((h ^^^ b) * 1099511628211) % M64) 14695981039346656037

/-- Szudzik's elegant pairing function on 64-bit unsigned integers, as
`szudzikElegantPair` in factstore.go (wrapping arithmetic). -/
def szudzikElegantPair (fst snd : Nat) : Nat :=
  if fst ≥ snd then (fst * fst + fst + snd) % M64 else (snd * snd + fst) % M64

/-- Numeric type tag of a constant.  Modelled from the spec: the source
reads `ast.Constant.Type` (external Mangle code); the claims depend only
on the tags being stable and distinct per variant, so the variants are
numbered in declaration order. -/
def typeTag : Constant → Nat
  | .name _ => 0
  | .str _ => 1
  | .bytes _ => 2
  | .num _ => 3
  | .list _ => 5
  | .pair _ _ => 6
  | .map _ => 7
  | .strct _ => 8

mutual

/-- Per-value 64-bit hash of a constant.  Modelled from the spec: the
source calls `ast.Constant.Hash` (external Mangle code), which §4.2
requires to be stable across runs and identical regardless of the
in-memory entry order of a Map or Struct.  The model prefixes a variant
tag and hashes leaves with FNV-64a; compound values combine child
hashes, map and struct entries by a commutative (order-insensitive)
sum modulo 2^64. -/
def constHash : Constant → Nat
  | .name s => fnv64a (1 :: strBytes s)
  | .str s => fnv64a (2 :: strBytes s)
  | .bytes bs => fnv64a (3 :: bs)
  | .num n => fnv64a (4 :: (intRepr n).map Char.toNat)
  | .list xs => constHashList (fnv64a [5]) xs
  | .pair a b => szudzikElegantPair (fnv64a [6]) (szudzikElegantPair (constHash a) (constHash b))
  | .map es => (fnv64a [7] + entriesHashSum es) % M64
  | .strct es => (fnv64a [8] + entriesHashSum es) % M64

/-- Order-sensitive fold of element hashes, for lists. -/
def constHashList : Nat → List Constant → Nat
  | acc, [] => acc
  | acc, c :: cs => constHashList (szudzikElegantPair acc (constHash c)) cs

/-- Order-insensitive combination of entry hashes, for maps/structs. -/
def entriesHashSum : List (Constant × Constant) → Nat
  | [] => 0
  | (k, v) :: es => (szudzikElegantPair (constHash k) (constHash v) + entriesHashSum es) % M64

end

/-- Hash of one map/struct entry, used by the order-insensitive sum. -/
def entryHash (e : Constant × Constant) : Nat :=
  szudzikElegantPair (constHash e.1) (constHash e.2)

/-- Flatten sorted entry pairs to `[k1, v1, k2, v2, …]`; embeds
`flattenPairs` (factstore.go). -/
def flattenPairs : List (Constant × Constant) → List Constant
  | [] => []
  | (k, v) :: es => k :: v :: flattenPairs es

/-- Comparison used to sort map/struct entries: ascending hash of the
key, as `sortablePairs.Less` (factstore.go). -/
def entryLe (a b : Constant × Constant) : Prop := constHash a.1 ≤ constHash b.1

instance : DecidableRel entryLe := fun a b => Nat.decLe (constHash a.1) (constHash b.1)

/-- Extract the entries of a map or struct, sort them by key hash and
flatten to `[k1, v1, k2, v2, …]`; embeds `getSortedConstants`
(factstore.go), taking the entry list the source obtains from
`MapValues`/`StructValues`. -/
def getSortedConstants (es : List (Constant × Constant)) : List Constant :=
  flattenPairs (List.insertionSort entryLe es)

/-- A Mangle predicate symbol: name and arity. -/
structure PredicateSym where
  symbol : String
  arity : Nat
deriving DecidableEq, Repr

/-- A term at the store boundary: a constant, or a variable (wildcard).
Mirrors the `ast.BaseTerm` cases the source distinguishes with its
`arg.(ast.Constant)` type switches. -/
inductive BaseTerm where
  | const (c : Constant)
  | var (v : String)

/-- An atom: predicate symbol plus argument list. -/
structure Atom where
  predicate : PredicateSym
  args : List BaseTerm

/-- Whether every argument of the atom is a constant. -/
def Atom.ground (a : Atom) : Bool :=
  a.args.all fun t => match t with
    | .const _ => true
    | .var _ => false

/-- The database key `"symbol_arity"` of a predicate, as
`predicateToKey` (factstore.go, `strconv.Itoa` for the arity). -/
def predicateToKey (p : PredicateSym) : String :=
  String.mk (p.symbol.data ++ '_' :: natRepr p.arity)

/-- Split a character list at its last underscore. -/
def splitLastUnderscore : List Char → Option (List Char × List Char)
  | [] => none
  | c :: rest =>
    match splitLastUnderscore rest with
    | some (pre, suf) => some (c :: pre, suf)
    | none => if c = '_' then some ([], rest) else none

/-- Decimal digit value of a character. -/
def digitVal (c : Char) : Option Nat :=
  if 48 ≤ c.toNat ∧ c.toNat ≤ 57 then some (c.toNat - 48) else none

/-- Accumulate decimal digits into a number. -/
def parseNatAux : Nat → List Char → Option Nat
  | acc, [] => some acc
  | acc, c :: rest =>
    match digitVal c with
    | some d => parseNatAux (acc * 10 + d) rest
    | none => none

/-- Parse a non-empty all-digit string, as `strconv.Atoi` does on the
non-negative arities the store writes. -/
def parseNatDigits (cs : List Char) : Option Nat :=
  if cs.isEmpty then none else parseNatAux 0 cs

/-- Parse a database key `"symbol_arity"` back to a predicate symbol,
splitting at the last underscore; embeds `keyToPredicate`
(factstore.go), with `none` for the error returns. -/
def keyToPredicate (key : String) : Option PredicateSym :=
  match splitLastUnderscore key.data with
  | none => none
  | some (pre, suf) => (parseNatDigits suf).map fun a => ⟨String.mk pre, a⟩

/-- Reinterpret a 64-bit unsigned value as signed, as the source's
`int64(hashResult)` cast. -/
def toInt64 (u : Nat) : Int :=
  if u < 9223372036854775808 then (u : Int) else (u : Int) - (M64 : Int)

/-- Initial accumulator of the atom fingerprint: the pairing of the
FNV-64a hash of the predicate symbol with the arity. -/
def atomHashStart (p : PredicateSym) : Nat :=
  szudzikElegantPair (fnv64a (strBytes p.symbol)) p.arity

/-- One fingerprint fold step for a non-map/struct part or a sorted
map/struct entry part. -/
def partStep (acc : Nat) (part : Constant) : Nat :=
  szudzikElegantPair acc (szudzikElegantPair (constHash part) (typeTag part))

/-- Fingerprint contribution of one argument: map and struct arguments
fold their entries sorted by key hash, key then value; every other
argument folds directly. -/
def argHashFold (acc : Nat) (c : Constant) : Nat :=
  match c with
  | .map es => (getSortedConstants es).foldl partStep acc
  | .strct es => (getSortedConstants es).foldl partStep acc
  | _ => partStep acc c

/-- Extract the constant arguments of an atom, failing on the first
non-constant argument, as the `arg.(ast.Constant)` checks do. -/
def constArgs : List BaseTerm → Except String (List Constant)
  | [] => .ok []
  | .const c :: rest => (constArgs rest).map (c :: ·)
  | .var _ :: _ => .error "evaluation produced something that is not a value"

/-- Convert an atom to its row data: the signed 64-bit `atom_hash` and
the token stream of the JSON `args` array.  Embeds `atomToRowForInsert`
(factstore.go): the fingerprint starts from `atomHashStart`, each
argument folds per `argHashFold` while the same pass marshals the
argument, and the final accumulator is reinterpreted as signed. -/
def atomToRowForInsert (a : Atom) : Except String (Int × List JToken) := do
  let cs ← constArgs a.args
  let h := cs.foldl argHashFold (atomHashStart a.predicate)
  pure (toInt64 h, .beginArray :: marshalConstList cs ++ [.endArray])

/-- String value of a token, modelling `jsontext.Token.String`: the
payload of a string token, the text of other tokens. -/
def tokString : JToken → String
  | .jstr s => s
  | .jint n => String.mk (intRepr n)
  | .beginArray => "["
  | .endArray => "]"
  | .beginObject => String.mk ['\x7b']
  | .endObject => String.mk ['\x7d']
  | .jnull => "null"

/-- Integer value of a token, modelling `jsontext.Token.Int`: the
payload of an integer token, zero otherwise. -/
def tokInt : JToken → Int
  | .jint n => n
  | _ => 0

/-- Group a flat `[k1, v1, k2, v2, …]` argument list into entry pairs,
as the decoder's `for i := 0; i < len(constants); i += 2` loops do. -/
def pairUp : List Constant → List (Constant × Constant)
  | [] => []
  | [_] => []
  | k :: v :: rest => (k, v) :: pairUp rest

/-- Build the decoded constant once a function object is complete:
check the declared arity against the collected argument count, then
dispatch on the function symbol (`fn:pair`, `fn:map`, `fn:struct`);
anything else is an unknown function symbol.  Embeds the tail of
`constantJSON.UnmarshalJSONFrom`'s object case.  The entry order of the
constructed map or struct is the argument encounter order (the source
builds an address-keyed Go map and the constructed value yields its
entries in an unspecified order; the embedding fixes encounter order). -/
def finishFnObject (symbol : String) (arity : Nat) (args : List Constant)
    (rest : List JToken) : Except String (Constant × List JToken) :=
  if arity ≠ args.length then .error "arity mismatch"
  else match symbol with
    | "fn:pair" =>
      match args with
      | [a, b] => .ok (.pair a b, rest)
      | _ => .error "fn:pair expects 2 args"
    | "fn:map" =>
      if args.length % 2 = 0 then .ok (.map (pairUp args), rest)
      else .error "fn:map expects even number of args"
    | "fn:struct" =>
      if args.length % 2 = 0 then .ok (.strct (pairUp args), rest)
      else .error "fn:struct expects even number of args"
    | _ => .error "unknown function symbol"

mutual

/-- Decode one constant from a token stream; embeds
`constantJSON.UnmarshalJSONFrom` (atom_marshaller.go).  Null is
rejected; a string starting with `/` becomes a Name (re-validated), a
string starting with `#b` and longer than two characters becomes Bytes
via hex decoding, any other string a String; an integer token becomes a
Number (the integral-valued check of the source always passes here
because float tokens are outside the embedding); an array becomes a
List; an object is read through its `function`/`args` fields.  The fuel
argument only serves termination; every recursive call consumes input,
so any fuel bounding the consumed tokens is enough. -/
def unmarshalConstant : Nat → List JToken → Except String (Constant × List JToken)
  | 0, _ => .error "out of fuel"
  | _ + 1, [] => .error "failed to read token"
  | _ + 1, .jnull :: _ => .error "null values are not supported for constants"
  | _ + 1, .jstr s :: rest =>
    if strHasPrefix s "/" then
      if validName s then .ok (.name s, rest)
      else .error "failed to create name"
    else if s.data.length > 2 ∧ strHasPrefix s "#b" then
      match hexPairsParse (s.data.drop 2) with
      | some bs => .ok (.bytes bs, rest)
      | none => .error "failed to decode hex bytes"
    else .ok (.str s, rest)
  | _ + 1, .jint n :: rest => .ok (.num n, rest)
  | fuel + 1, .beginArray :: rest => do
    let (xs, rest1) ← unmarshalListElems fuel rest
    match rest1 with
    | .endArray :: rest2 => .ok (.list xs, rest2)
    | _ => .error "failed to read array end"
  | fuel + 1, .beginObject :: rest => unmarshalObjFields fuel rest "" 0 []
  | _ + 1, _ :: _ => .error "unexpected JSON token kind"

/-- Decode array elements until the closing bracket is the next token
(the source's `for dec.PeekKind() != ']'` loop); the closing bracket is
left for the caller to consume. -/
def unmarshalListElems : Nat → List JToken → Except String (List Constant × List JToken)
  | 0, _ => .error "out of fuel"
  | _ + 1, .endArray :: rest => .ok ([], .endArray :: rest)
  | fuel + 1, ts => do
    let (c, rest) ← unmarshalConstant fuel ts
    let (cs, rest1) ← unmarshalListElems fuel rest
    .ok (c :: cs, rest1)

/-- Field loop of a function object: `function` reads the nested
symbol/arity object, `args` reads the argument array, any other key is
an error, a non-string key is an error, and the closing brace finishes
the object. -/
def unmarshalObjFields : Nat → List JToken → String → Nat → List Constant →
    Except String (Constant × List JToken)
  | 0, _, _, _, _ => .error "out of fuel"
  | _ + 1, [], _, _, _ => .error "failed to read object token"
  | _ + 1, .endObject :: rest, symbol, arity, args => finishFnObject symbol arity args rest
  | fuel + 1, .jstr "function" :: rest, symbol, arity, args =>
    (match rest with
     | .beginObject :: rest1 => do
       let (sym, ar, rest2) ← unmarshalFnFields fuel rest1 symbol arity
       unmarshalObjFields fuel rest2 sym ar args
     | _ => .error "expected object for function")
  | fuel + 1, .jstr "args" :: rest, symbol, arity, args =>
    (match rest with
     | .beginArray :: rest1 => do
       let (xs, rest2) ← unmarshalListElems fuel rest1
       match rest2 with
       | .endArray :: rest3 => unmarshalObjFields fuel rest3 symbol arity (args ++ xs)
       | _ => .error "failed to read args array end"
     | _ => .error "expected array for args")
  | _ + 1, .jstr _ :: _, _, _, _ => .error "unexpected object field"
  | _ + 1, _ :: _, _, _, _ => .error "expected string key"

/-- Field loop of the nested function-descriptor object: `symbol` and
`arity` store the next token's string/integer value (via the Token
accessors, unconditionally, as the source does), any other key is an
error, the closing brace returns the collected pair. -/
def unmarshalFnFields : Nat → List JToken → String → Nat →
    Except String (String × Nat × List JToken)
  | 0, _, _, _ => .error "out of fuel"
  | _ + 1, [], _, _ => .error "failed to read function field"
  | _ + 1, .endObject :: rest, sym, ar => .ok (sym, ar, rest)
  | fuel + 1, .jstr "symbol" :: rest, _, ar =>
    (match rest with
     | t :: rest1 => unmarshalFnFields fuel rest1 (tokString t) ar
     | [] => .error "failed to read symbol")
  | fuel + 1, .jstr "arity" :: rest, sym, _ =>
    (match rest with
     | t :: rest1 => unmarshalFnFields fuel rest1 sym (tokInt t).toNat
     | [] => .error "failed to read arity")
  | _ + 1, .jstr _ :: _, _, _ => .error "unexpected function field"
  | _ + 1, _ :: _, _, _ => .error "expected string key"

end

/-- Skip the remainder of a composite value at the given nesting depth,
modelling `jsontext.Decoder.SkipValue` for the unknown-field case of the
atom decoder. -/
def skipDepth : Nat → Nat → List JToken → Except String (List JToken)
  | 0, _, _ => .error "out of fuel"
  | _ + 1, 0, ts => .ok ts
  | fuel + 1, d + 1, ts =>
    match ts with
    | [] => .error "failed to skip value"
    | .beginArray :: rest => skipDepth fuel (d + 2) rest
    | .beginObject :: rest => skipDepth fuel (d + 2) rest
    | .endArray :: rest => skipDepth fuel d rest
    | .endObject :: rest => skipDepth fuel d rest
    | _ :: rest => skipDepth fuel (d + 1) rest

/-- Skip one complete value (scalar or composite). -/
def skipValue (fuel : Nat) : List JToken → Except String (List JToken)
  | [] => .error "failed to skip value"
  | .beginArray :: rest => skipDepth fuel 1 rest
  | .beginObject :: rest => skipDepth fuel 1 rest
  | .endArray :: _ => .error "failed to skip value"
  | .endObject :: _ => .error "failed to skip value"
  | _ :: rest => .ok rest

mutual

/-- Field loop of an atom object (`atomJSON.UnmarshalJSONFrom`,
atom_marshaller.go): `predicate` reads the nested symbol/arity object,
`args` reads the argument array into constants, unknown keys have their
values skipped, a non-string key is an error; the closing brace yields
the collected atom. -/
def unmarshalAtomFields : Nat → List JToken → String → Nat → List BaseTerm →
    Except String (Atom × List JToken)
  | 0, _, _, _, _ => .error "out of fuel"
  | _ + 1, [], _, _, _ => .error "failed to read atom end"
  | _ + 1, .endObject :: rest, sym, ar, args => .ok (⟨⟨sym, ar⟩, args⟩, rest)
  | fuel + 1, .jstr "predicate" :: rest, sym, ar, args =>
    (match rest with
     | .beginObject :: rest1 => do
       let (sym1, ar1, rest2) ← unmarshalPredFields fuel rest1 sym ar
       unmarshalAtomFields fuel rest2 sym1 ar1 args
     | _ => .error "expected predicate object start")
  | fuel + 1, .jstr "args" :: rest, sym, ar, args =>
    (match rest with
     | .beginArray :: rest1 => do
       let (xs, rest2) ← unmarshalListElems fuel rest1
       match rest2 with
       | .endArray :: rest3 =>
         unmarshalAtomFields fuel rest3 sym ar (args ++ xs.map .const)
       | _ => .error "expected args array end"
     | _ => .error "expected args array start")
  | fuel + 1, .jstr _ :: rest, sym, ar, args => do
    let rest1 ← skipValue fuel rest
    unmarshalAtomFields fuel rest1 sym ar args
  | _ + 1, _ :: _, _, _, _ => .error "expected string key for atom field"

/-- Field loop of the nested predicate object: `symbol` and `arity`
store the next token's string/integer value; any other key has its
value token consumed and ignored (the source's switch has no default
case); the closing brace returns the collected pair. -/
def unmarshalPredFields : Nat → List JToken → String → Nat →
    Except String (String × Nat × List JToken)
  | 0, _, _, _ => .error "out of fuel"
  | _ + 1, [], _, _ => .error "failed to read predicate field"
  | _ + 1, .endObject :: rest, sym, ar => .ok (sym, ar, rest)
  | fuel + 1, .jstr k :: rest, sym, ar =>
    (match rest with
     | t :: rest1 =>
       if k = "symbol" then unmarshalPredFields fuel rest1 (tokString t) ar
       else if k = "arity" then unmarshalPredFields fuel rest1 sym (tokInt t).toNat
       else unmarshalPredFields fuel rest1 sym ar
     | [] => .error "failed to read predicate value")
  | _ + 1, _ :: _, _, _ => .error "expected string key for predicate field"

end

/-- Decode one atom object from the token stream; embeds
`atomJSON.UnmarshalJSONFrom` (atom_marshaller.go). -/
def unmarshalAtomTokens (fuel : Nat) : List JToken → Except String (Atom × List JToken)
  | .beginObject :: rest => unmarshalAtomFields fuel rest "" 0 []
  | _ => .error "expected atom object start"

/-- Decode a stored `args` column (a JSON array of constants) together
with a predicate into a ground atom; embeds `unmarshalAtom`
(atom_marshaller.go), which `GetFacts` applies to each row. -/
def unmarshalAtom (p : PredicateSym) (argsJSON : List JToken) : Except String Atom :=
  match argsJSON with
  | .beginArray :: rest =>
    (match unmarshalListElems (argsJSON.length + 1) rest with
     | .error e => .error e
     | .ok (cs, rest1) =>
       match rest1 with
       | [.endArray] => .ok ⟨p, cs.map .const⟩
       | _ => .error "failed to unmarshal args")
  | _ => .error "failed to unmarshal args"

/-- One persisted fact row of the single `facts` table:
`(predicate TEXT, atom_hash BIGINT PRIMARY KEY, args JSON)`. -/
structure Row where
  predicate : String
  atomHash : Int
  args : List JToken
deriving DecidableEq, Repr

/-- The `facts` table, as the list of its rows.  The dialect DDL makes
`atom_hash` the primary key; the operations below enforce it the way
the dialect DML does. -/
abbrev Store := List Row

/-- Whether a row with the given `atom_hash` exists; the semantics of
the dialects' `SELECT COUNT(*) FROM facts WHERE atom_hash = ?` being
positive. -/
def hashMem (s : Store) (h : Int) : Bool := s.any fun r => r.atomHash == h

/-- Insert one row, doing nothing on an `atom_hash` conflict; the
semantics of `INSERT INTO facts … ON CONFLICT DO NOTHING` for one row. -/
def insertRow (s : Store) (r : Row) : Store :=
  if hashMem s r.atomHash then s else s ++ [r]

/-- Embeds `FactStoreDB.Add` (factstore.go): convert the atom to a row
(false on a non-constant argument), run the insert-or-ignore statement,
and report whether a row was actually inserted. -/
def addFact (s : Store) (a : Atom) : Store × Bool :=
  match atomToRowForInsert a with
  | .error _ => (s, false)
  | .ok (h, args) =>
    if hashMem s h then (s, false)
    else (s ++ [⟨predicateToKey a.predicate, h, args⟩], true)

/-- Embeds `FactStoreDB.Contains` (factstore.go): a pure `atom_hash`
lookup; false on a non-constant argument. -/
def containsFact (s : Store) (a : Atom) : Bool :=
  match atomToRowForInsert a with
  | .error _ => false
  | .ok (h, _) => hashMem s h

/-- Embeds `FactStoreDB.Remove` (factstore.go): `DELETE FROM facts
WHERE atom_hash = ?`, reporting whether any row was deleted; false on a
non-constant argument. -/
def removeFact (s : Store) (a : Atom) : Store × Bool :=
  match atomToRowForInsert a with
  | .error _ => (s, false)
  | .ok (h, _) => (s.filter fun r => r.atomHash != h, hashMem s h)

/-- Pre-encode one fact into a row, `none` for a non-ground atom; the
pre-computation loop of `batchInsertFacts` (factstore.go). -/
def rowOfFact (f : Atom) : Option Row :=
  match atomToRowForInsert f with
  | .error _ => none
  | .ok (h, args) => some ⟨predicateToKey f.predicate, h, args⟩

/-- Chunking accumulator: slice a list into pieces of at most `n`. -/
def chunksAcc {α : Type} (n : Nat) : List α → List α → List (List α)
  | [], acc => if acc.isEmpty then [] else [acc.reverse]
  | x :: xs, acc =>
    if acc.length + 1 = n then (x :: acc).reverse :: chunksAcc n xs []
    else chunksAcc n xs (x :: acc)

/-- Slice a list into consecutive chunks of size `n` (last one may be
shorter); the `for i := 0; i < len(rows); i += batchSize` slicing of
`batchInsertFacts`. -/
def chunksOf {α : Type} (n : Nat) (xs : List α) : List (List α) := chunksAcc n xs []

/-- Execute one multi-row `INSERT … VALUES (…),(…) ON CONFLICT DO
NOTHING`: every row of the batch is inserted, conflicts skipped. -/
def execBatch (s : Store) (b : List Row) : Store := b.foldl insertRow s

/-- Run the batches of one transaction in order.  The oracle `failAt`
says which `tx.Exec` calls fail (modelling driver/backend errors); on
the first failure the function returns the error and — because the
source holds all batches in a single transaction whose deferred
`Rollback` runs on the error path — none of the transaction's effects
survive, which the caller expresses by keeping its pre-transaction
store. -/
def txExecBatches (failAt : Nat → Bool) : Nat → Store → List (List Row) →
    Except String Store
  | _, s, [] => .ok s
  | i, s, b :: bs =>
    if failAt i then .error "failed to execute batch insert"
    else txExecBatches failAt (i + 1) (execBatch s b) bs

/-- The failure oracle of an error-free run. -/
def noFailure : Nat → Bool := fun _ => false

/-- The fixed batch size of the source (`const batchSize = 500`). -/
def batchSize : Nat := 500

/-- Embeds `FactStoreDB.batchInsertFacts` (factstore.go): pre-encode
all rows outside the transaction, silently skipping non-ground atoms;
do nothing when no row remains; otherwise begin one transaction, run
every 500-row batch inside it, and commit at the end.  The result is
the committed store, or an error after which the rollback leaves the
caller's store unchanged. -/
def batchInsertFacts (failAt : Nat → Bool) (s : Store) (facts : List Atom) :
    Except String Store :=
  let rows := facts.filterMap rowOfFact
  if rows.isEmpty then .ok s
  else txExecBatches failAt 0 s (chunksOf batchSize rows)

/-- Embeds `FactStoreDB.Merge` (factstore.go) applied to the fact list
collected from the other store: nothing to do on an empty collection,
otherwise one `batchInsertFacts` call whose error is only logged, the
rolled-back transaction leaving the store as it was. -/
def mergeFacts (failAt : Nat → Bool) (s : Store) (facts : List Atom) : Store :=
  if facts.isEmpty then s
  else
    match batchInsertFacts failAt s facts with
    | .ok s1 => s1
    | .error _ => s

/-- First-occurrence deduplication of a string list; the semantics of
`SELECT DISTINCT predicate FROM facts`. -/
def distinct : List String → List String
  | [] => []
  | k :: ks => k :: (distinct ks).filter (fun x => x != k)

/-- Embeds `FactStoreDB.ListPredicates` (factstore.go): the distinct
predicate keys, each parsed back through `keyToPredicate`, unparsable
keys skipped (the source logs and continues). -/
def listPredicates (s : Store) : List PredicateSym :=
  (distinct (s.map (·.predicate))).filterMap keyToPredicate

/-- Character-code lexicographic strict order on strings, modelling the
Go `<` on the (ASCII) predicate symbols compared in `WriteTo`. -/
def strLtCore : List Char → List Char → Bool
  | [], [] => false
  | [], _ :: _ => true
  | _ :: _, [] => false
  | a :: as, b :: bs =>
    if a.toNat < b.toNat then true
    else if a.toNat = b.toNat then strLtCore as bs
    else false

/-- Strict order on strings. -/
def strLtB (a b : String) : Bool := strLtCore a.data b.data

/-- The sort order of `WriteTo`'s `sort.Slice` call: symbol ascending,
then arity ascending (the reflexive closure of the source's strict
`less`, as a sortable total preorder). -/
def predLe (a b : PredicateSym) : Prop :=
  strLtB a.symbol b.symbol = true ∨ (a.symbol = b.symbol ∧ a.arity ≤ b.arity)

instance : DecidableRel predLe := fun a b => by
  unfold predLe
  exact inferInstance

/-- The predicate enumeration of `WriteTo`: `ListPredicates` sorted by
symbol then arity. -/
def sortedPredicates (s : Store) : List PredicateSym :=
  List.insertionSort predLe (listPredicates s)

/-- Sequence a fallible computation over a list, stopping at the first
error, as the source's sequential loops over rows and predicates do. -/
def mapME {α β : Type} (f : α → Except String β) : List α → Except String (List β)
  | [] => .ok []
  | x :: xs => do
    let y ← f x
    let ys ← mapME f xs
    .ok (y :: ys)

/-- Rows of one predicate, decoded to atoms; the all-wildcard
`GetFacts(ast.NewQuery(pred), …)` query `WriteTo` and `Merge` issue:
`SELECT predicate, args FROM facts WHERE predicate = ?` with no
argument filters, each row's `args` decoded through `unmarshalAtom`. -/
def getFactsForPred (s : Store) (p : PredicateSym) : Except String (List Atom) :=
  mapME (fun r => unmarshalAtom p r.args)
    (s.filter fun r => r.predicate == predicateToKey p)

/-- Token stream of one atom object
`⦃"predicate":⦃"symbol":…,"arity":…⦄,"args":[…]⦄`; the header part of
`atomJSON.MarshalJSONTo`. -/
def atomHeaderTokens (p : PredicateSym) : List JToken :=
  [.beginObject, .jstr "predicate", .beginObject, .jstr "symbol", .jstr p.symbol,
   .jstr "arity", .jint p.arity, .endObject, .jstr "args", .beginArray]

/-- Embeds `atomJSON.MarshalJSONTo` (atom_marshaller.go): the atom
object with its predicate descriptor and marshalled argument array;
an error on a non-constant argument. -/
def marshalAtomTokens (a : Atom) : Except String (List JToken) :=
  match constArgs a.args with
  | .error _ => .error "atom arg is not a constant"
  | .ok cs => .ok (atomHeaderTokens a.predicate ++ marshalConstList cs ++ [.endArray, .endObject])

/-- Embeds `FactStoreDB.WriteTo` (factstore.go): one JSON array holding
every fact, predicates enumerated in `sortedPredicates` order, each
predicate's rows fetched through the all-wildcard `GetFacts` and
re-marshalled; the returned number is the total count of bytes written
through the counting writer (the length of the rendered stream). -/
def writeTo (s : Store) : Except String (List JToken × Nat) := do
  let groups ← mapME (getFactsForPred s) (sortedPredicates s)
  let bodies ← mapME marshalAtomTokens groups.flatten
  let ts := .beginArray :: bodies.flatten ++ [.endArray]
  pure (ts, (render ts).length)

/-- Loop of `ReadFrom`: decode atom objects until the closing bracket,
collecting batches of 500 and flushing each through
`batchInsertFacts`, with a final flush at the end of the stream. -/
def readFromLoop (failAt : Nat → Bool) : Nat → Store → List JToken → List Atom →
    Except String Store
  | 0, _, _, _ => .error "out of fuel"
  | _ + 1, s, .endArray :: _, batch =>
    if batch.isEmpty then .ok s else batchInsertFacts failAt s batch
  | fuel + 1, s, ts, batch => do
    let (a, rest) ← unmarshalAtomTokens fuel ts
    let batch1 := batch ++ [a]
    if batch1.length ≥ batchSize then do
      let s1 ← batchInsertFacts failAt s batch1
      readFromLoop failAt fuel s1 rest []
    else readFromLoop failAt fuel s rest batch1

/-- Embeds `FactStoreDB.ReadFrom` (factstore.go): expect the opening
bracket of a JSON array, then batch-insert the decoded atoms. -/
def readFrom (failAt : Nat → Bool) (s : Store) (ts : List JToken) : Except String Store :=
  match ts with
  | .beginArray :: rest => readFromLoop failAt (ts.length + 1) s rest []
  | _ => .error "expected JSON array start"

/-- The closable resources of a store: the ownership flag the
constructors set (`ownsDB` in factstore_postgres.go /
factstore_sqlite.go) and the closed state of the three prepared
statements and the database handle. -/
structure StoreHandles where
  ownsDB : Bool
  addStmtClosed : Bool
  removeStmtClosed : Bool
  containsStmtClosed : Bool
  dbClosed : Bool
deriving DecidableEq, Repr

/-- Embeds `FactStoreDB.Close` (factstore.go): close the three prepared
statements, then close the database handle — unconditionally; the
function never consults `ownsDB`. -/
def closeStore (h : StoreHandles) : StoreHandles :=
  ⟨h.ownsDB, true, true, true, true⟩

/-- The constant payload of a term, if any. -/
def termConst : BaseTerm → Option Constant
  | .const c => some c
  | .var _ => none

/-- The constant arguments of an atom (meaningful when it is ground). -/
def atomArgsConsts (a : Atom) : List Constant := a.args.filterMap termConst

/-- The fingerprint an atom row receives, as a standalone function of
the atom. -/
def atomHashOf (a : Atom) : Int :=
  toInt64 ((atomArgsConsts a).foldl argHashFold (atomHashStart a.predicate))

/-- The `args` column tokens an atom row receives. -/
def atomArgsTokens (a : Atom) : List JToken :=
  .beginArray :: marshalConstList (atomArgsConsts a) ++ [.endArray]

mutual

/-- Constants whose encoding decodes back to the same constant: valid
Names; Strings that do not collide with the Name or Bytes
discriminators; nonempty byte strings (with byte-ranged entries, as Go's
`byte` guarantees); numbers; and compounds of such.  This carves out
exactly the fragment on which the codec of the source round-trips. -/
def stableConst : Constant → Bool
  | .name s => validName s
  | .str s => !strHasPrefix s "/" && !(decide (s.data.length > 2) && strHasPrefix s "#b")
  | .bytes bs => !bs.isEmpty && bs.all (· < 256)
  | .num _ => true
  | .list xs => stableList xs
  | .pair a b => stableConst a && stableConst b
  | .map es => stableEntries es
  | .strct es => stableEntries es

/-- All elements stable. -/
def stableList : List Constant → Bool
  | [] => true
  | c :: cs => stableConst c && stableList cs

/-- All keys and values stable. -/
def stableEntries : List (Constant × Constant) → Bool
  | [] => true
  | (k, v) :: es => stableConst k && stableConst v && stableEntries es

end

/-- Atoms whose every argument is a constant of the stable fragment. -/
def stableAtom (a : Atom) : Bool :=
  a.args.all fun t =>
    match t with
    | .const c => stableConst c
    | .var _ => false

/-- The store produced by adding a list of facts to the empty store in
order, one `Add` per fact. -/
def storeOfFacts (L : List Atom) : Store :=
  L.foldl (fun s a => (addFact s a).1) []

/-- The token stream of one exported atom object, as a function of the
atom: the predicate header, the marshalled argument array, and the two
closing brackets. -/
def atomBodyTokens (a : Atom) : List JToken :=
  atomHeaderTokens a.predicate ++ marshalConstList (atomArgsConsts a) ++
    [.endArray, .endObject]

/-- The concatenated bodies of a list of exported atoms, the payload
between `WriteTo`'s outer array brackets. -/
def bodiesTokens (as : List Atom) : List JToken := as.flatMap atomBodyTokens

/-- The object shape the amended C3 describes, written from its words:
`⦃"function":⦃"symbol":sym,"arity":2n⦄,"args":[k1,v1,…]⦄` with the
entries in the order the in-memory value yields them. -/
def specFnObjectTokens (sym : String) (es : List (Constant × Constant)) : List JToken :=
  [.beginObject, .jstr "function", .beginObject, .jstr "symbol", .jstr sym,
   .jstr "arity", .jint (2 * es.length), .endObject, .jstr "args", .beginArray]
  ++ (es.flatMap fun e => marshalConstant e.1 ++ marshalConstant e.2)
  ++ [.endArray, .endObject]

/-- The pairing function as the specification words it (§4.2):
`a ≥ b ⇒ a² + a + b; else b² + a`, on 64-bit unsigned integers. -/
def specPair (a b : Nat) : Nat :=
  if b ≤ a then (a * a + a + b) % M64 else (b * b + a) % M64

/-- One fold step of the specified fingerprint:
`acc ← pair(acc, pair(H(part), type_tag(part)))`. -/
def specPartFold (acc : Nat) (part : Constant) : Nat :=
  specPair acc (specPair (constHash part) (typeTag part))

/-- The specified per-argument fold: a Map or Struct argument has its
entries sorted by key hash and folded key then value; any other
argument folds directly. -/
def specArgFold (acc : Nat) (c : Constant) : Nat :=
  match c with
  | .map es => ((List.insertionSort entryLe es).flatMap fun e => [e.1, e.2]).foldl specPartFold acc
  | .strct es => ((List.insertionSort entryLe es).flatMap fun e => [e.1, e.2]).foldl specPartFold acc
  | _ => specPartFold acc c

/-- The atom fingerprint exactly as §4.2 of the specification states
it: start from `pair(H(predicate.symbol), arity)`, fold the arguments
in order, reinterpret the final unsigned accumulator as signed. -/
def specAtomFingerprint (p : PredicateSym) (cs : List Constant) : Int :=
  toInt64 (cs.foldl specArgFold (specPair (fnv64a (strBytes p.symbol)) p.arity))

/-- Two constants differing at most in the order of top-level
Map/Struct entries — the instance of structural equality the claim
singles out. -/
def argOrderEquiv (c1 c2 : Constant) : Prop :=
  c1 = c2 ∨
  (∃ es1 es2, c1 = .map es1 ∧ c2 = .map es2 ∧ es1.Perm es2) ∨
  (∃ es1 es2, c1 = .strct es1 ∧ c2 = .strct es2 ∧ es1.Perm es2)

/-- Argument-wise lift of `argOrderEquiv` to terms. -/
def termOrderEquiv (t1 t2 : BaseTerm) : Prop :=
  match t1, t2 with
  | .const c1, .const c2 => argOrderEquiv c1 c2
  | _, _ => t1 = t2

/-- Two atoms that are structurally equal up to the order of Map/Struct
entries in their arguments. -/
def atomOrderEquiv (a1 a2 : Atom) : Prop :=
  a1.predicate = a2.predicate ∧ List.Forall₂ termOrderEquiv a1.args a2.args

/-- No two entries of the map/struct share a 64-bit key hash (the
standing no-collision assumption of §4.2). -/
def argKeysDistinct : Constant → Prop
  | .map es => (es.map fun e => constHash e.1).Nodup
  | .strct es => (es.map fun e => constHash e.1).Nodup
  | _ => True

/-- Every Map/Struct argument of the atom has pairwise distinct key
hashes. -/
def atomKeysDistinct (a : Atom) : Prop :=
  ∀ c : Constant, BaseTerm.const c ∈ a.args → argKeysDistinct c

instance : IsTotal (Constant × Constant) entryLe :=
  ⟨fun a b => Nat.le_total (constHash a.1) (constHash b.1)⟩

instance : IsTrans (Constant × Constant) entryLe :=
  ⟨fun _ _ _ hab hbc => Nat.le_trans hab hbc⟩

theorem constArgs_of_ground : ∀ args : List BaseTerm,
    (args.all fun t => (termConst t).isSome) = true →
    constArgs args = .ok (args.filterMap termConst)
  | [], _ => rfl
  | .const c :: rest, h => by
    have hr := constArgs_of_ground rest (by simp [List.all_cons] at h; simpa using h.2)
    simp [constArgs, hr, List.filterMap_cons, termConst, Except.map]
  | .var v :: rest, h => by simp [List.all_cons, termConst] at h

theorem constArgs_of_notground : ∀ args : List BaseTerm,
    (args.all fun t => (termConst t).isSome) = false →
    constArgs args = .error "evaluation produced something that is not a value"
  | [], h => by simp at h
  | .const c :: rest, h => by
    have hr := constArgs_of_notground rest (by simpa [List.all_cons, termConst] using h)
    simp [constArgs, hr, Except.map]
  | .var v :: rest, _ => rfl

theorem ground_iff_all_const (a : Atom) :
    a.ground = (a.args.all fun t => (termConst t).isSome) := by
  unfold Atom.ground
  congr 1
  funext t
  cases t <;> rfl

theorem atomToRow_of_ground (a : Atom) (h : a.ground = true) :
    atomToRowForInsert a = .ok (atomHashOf a, atomArgsTokens a) := by
  rw [ground_iff_all_const] at h
  simp [atomToRowForInsert, constArgs_of_ground a.args h, atomHashOf, atomArgsTokens,
    atomArgsConsts, Except.map]

theorem atomToRow_of_notground (a : Atom) (h : a.ground = false) :
    atomToRowForInsert a = .error "evaluation produced something that is not a value" := by
  rw [ground_iff_all_const] at h
  simp [atomToRowForInsert, constArgs_of_notground a.args h]

theorem hashMem_append (s t : Store) (h : Int) :
    hashMem (s ++ t) h = (hashMem s h || hashMem t h) := by
  simp [hashMem, List.any_append]

theorem hashMem_filter_ne (s : Store) (h : Int) :
    hashMem (s.filter fun r => r.atomHash != h) h = false := by
  simp only [hashMem, List.any_eq_false]
  intro r hr
  have := List.of_mem_filter hr
  simpa [bne] using this

theorem filter_ne_of_hashMem_false (s : Store) (h : Int) (hm : hashMem s h = false) :
    (s.filter fun r => r.atomHash != h) = s := by
  apply List.filter_eq_self.mpr
  intro r hr
  simp only [hashMem, List.any_eq_false] at hm
  simpa [bne] using hm r hr

/-- C1: for every ground atom `a`, starting from a store not containing
`a`: `Add(a)` returns true and afterwards `Contains(a)` returns true; an
immediate second `Add(a)` returns false (and leaves the store
unchanged); `Remove(a)` then returns true and afterwards `Contains(a)`
returns false; a second `Remove(a)` returns false. -/
theorem claim_C1_add_contains_remove (s : Store) (a : Atom)
    (hg : a.ground = true) (hni : containsFact s a = false) :
    (addFact s a).2 = true ∧
    containsFact (addFact s a).1 a = true ∧
    (addFact (addFact s a).1 a).2 = false ∧
    (addFact (addFact s a).1 a).1 = (addFact s a).1 ∧
    (removeFact (addFact s a).1 a).2 = true ∧
    containsFact (removeFact (addFact s a).1 a).1 a = false ∧
    (removeFact (removeFact (addFact s a).1 a).1 a).2 = false := by
  have hrow := atomToRow_of_ground a hg
  have hmem : hashMem s (atomHashOf a) = false := by
    simpa [containsFact, hrow] using hni
  have hadd : addFact s a =
      (s ++ [⟨predicateToKey a.predicate, atomHashOf a, atomArgsTokens a⟩], true) := by
    simp [addFact, hrow, hmem]
  have hmemS1 : hashMem
      (s ++ [(⟨predicateToKey a.predicate, atomHashOf a, atomArgsTokens a⟩ : Row)])
      (atomHashOf a) = true := by
    simp [hashMem_append, hashMem]
  have hfilter :
      (s ++ [(⟨predicateToKey a.predicate, atomHashOf a, atomArgsTokens a⟩ : Row)]).filter
        (fun r => r.atomHash != atomHashOf a) = s := by
    rw [List.filter_append, filter_ne_of_hashMem_false s _ hmem]
    simp
  refine ⟨by rw [hadd], ?_, ?_, ?_, ?_, ?_, ?_⟩ <;> rw [hadd]
  · simp [containsFact, hrow, hmemS1]
  · simp [addFact, hrow, hmemS1]
  · simp [addFact, hrow, hmemS1]
  · simp [removeFact, hrow, hmemS1]
  · simp [removeFact, hrow, hmemS1, hfilter, containsFact, hmem]
  · simp [removeFact, hrow, hmemS1, hfilter, hmem]

/-- Witness for C1 at the concrete atom `parent(/john, /mary)` and the
empty store. -/
theorem claim_C1_add_contains_remove_witness :
    (⟨⟨"parent", 2⟩, [.const (.name "/john"), .const (.name "/mary")]⟩ : Atom).ground = true ∧
    containsFact [] ⟨⟨"parent", 2⟩, [.const (.name "/john"), .const (.name "/mary")]⟩ = false ∧
    (addFact [] ⟨⟨"parent", 2⟩, [.const (.name "/john"), .const (.name "/mary")]⟩).2 = true := by
  refine ⟨rfl, rfl, ?_⟩
  exact (claim_C1_add_contains_remove []
    ⟨⟨"parent", 2⟩, [.const (.name "/john"), .const (.name "/mary")]⟩ rfl rfl).1

/-- C6: an atom with a variable argument is rejected by `Add`,
`Contains` and `Remove` — all three return false and leave the store
untouched — while the batch-insert path silently drops it during
pre-encoding and still inserts the remaining atoms of the batch. -/
theorem claim_C6_nonground_rejected (s : Store) (a : Atom)
    (hng : a.ground = false) :
    addFact s a = (s, false) ∧
    containsFact s a = false ∧
    removeFact s a = (s, false) ∧
    (∀ (failAt : Nat → Bool) (pre post : List Atom),
      batchInsertFacts failAt s (pre ++ a :: post) =
        batchInsertFacts failAt s (pre ++ post)) := by
  have hrow := atomToRow_of_notground a hng
  have hnone : rowOfFact a = none := by simp [rowOfFact, hrow]
  refine ⟨by simp [addFact, hrow], by simp [containsFact, hrow],
    by simp [removeFact, hrow], ?_⟩
  intro failAt pre post
  simp [batchInsertFacts, List.filterMap_append, List.filterMap_cons, hnone]

/-- Witness for C6 at the atom `p(X)` with a variable argument, the
empty store, and a batch around it holding `q(1)` and `r(2)`. -/
theorem claim_C6_nonground_rejected_witness :
    (⟨⟨"p", 1⟩, [.var "X"]⟩ : Atom).ground = false ∧
    addFact [] ⟨⟨"p", 1⟩, [.var "X"]⟩ = ([], false) ∧
    batchInsertFacts noFailure [] ([⟨⟨"q", 1⟩, [.const (.num 1)]⟩] ++
        (⟨⟨"p", 1⟩, [.var "X"]⟩ : Atom) :: [⟨⟨"r", 1⟩, [.const (.num 2)]⟩]) =
      batchInsertFacts noFailure [] ([⟨⟨"q", 1⟩, [.const (.num 1)]⟩] ++
        [⟨⟨"r", 1⟩, [.const (.num 2)]⟩]) := by
  have h := claim_C6_nonground_rejected [] ⟨⟨"p", 1⟩, [.var "X"]⟩ rfl
  exact ⟨rfl, h.1, h.2.2.2 noFailure [⟨⟨"q", 1⟩, [.const (.num 1)]⟩]
    [⟨⟨"r", 1⟩, [.const (.num 2)]⟩]⟩

/-- C9: `Close` always closes the three prepared statements, but it
also closes the database handle unconditionally — in particular for a
store built from a caller-supplied handle (`ownsDB = false`,
`NewFactStorePostgreSQLFromDB`), where the spec and the repository's
own tests require the handle to stay open.  The final conjunct
evaluates `Close` at exactly that failing configuration. -/
theorem claim_C9_close_always_closes_db :
    (∀ h : StoreHandles,
      (closeStore h).addStmtClosed = true ∧
      (closeStore h).removeStmtClosed = true ∧
      (closeStore h).containsStmtClosed = true ∧
      (closeStore h).dbClosed = true) ∧
    (closeStore ⟨false, false, false, false, false⟩).dbClosed = true := by
  exact ⟨fun h => ⟨rfl, rfl, rfl, rfl⟩, rfl⟩

/-- C10: `Contains` and `Remove` decide membership solely by
`atom_hash`.  For any two ground atoms with equal fingerprints, once the
first is added to a store not containing that hash, `Contains` reports
the second as present, and `Remove` of the second returns true and
deletes exactly the row stored for the first (restoring the original
store).  The last conjunct states hash-only dependence of `Contains`
directly. -/
theorem claim_C10_hash_only_membership (s : Store) (a1 a2 : Atom)
    (h1 : Int) (args1 : List JToken) (h2 : Int) (args2 : List JToken)
    (e1 : atomToRowForInsert a1 = .ok (h1, args1))
    (e2 : atomToRowForInsert a2 = .ok (h2, args2))
    (heq : h1 = h2)
    (hni : hashMem s h1 = false) :
    containsFact (addFact s a1).1 a2 = true ∧
    removeFact (addFact s a1).1 a2 = (s, true) ∧
    containsFact s a1 = containsFact s a2 := by
  subst heq
  have hadd : addFact s a1 = (s ++ [⟨predicateToKey a1.predicate, h1, args1⟩], true) := by
    simp [addFact, e1, hni]
  have hmemS1 : hashMem (s ++ [(⟨predicateToKey a1.predicate, h1, args1⟩ : Row)]) h1 = true := by
    simp [hashMem_append, hashMem]
  refine ⟨?_, ?_, by simp [containsFact, e1, e2]⟩ <;> rw [hadd]
  · simp [containsFact, e2, hmemS1]
  · simp only [removeFact, e2, hmemS1]
    rw [List.filter_append, filter_ne_of_hashMem_false s h1 hni]
    simp

/-- Witness for C10 with `a1 = a2 = p(7)` (fingerprints trivially
equal) over the empty store. -/
theorem claim_C10_hash_only_membership_witness :
    containsFact (addFact [] ⟨⟨"p", 1⟩, [.const (.num 7)]⟩).1
      ⟨⟨"p", 1⟩, [.const (.num 7)]⟩ = true := by
  exact (claim_C10_hash_only_membership [] ⟨⟨"p", 1⟩, [.const (.num 7)]⟩
    ⟨⟨"p", 1⟩, [.const (.num 7)]⟩
    (atomHashOf ⟨⟨"p", 1⟩, [.const (.num 7)]⟩)
    (atomArgsTokens ⟨⟨"p", 1⟩, [.const (.num 7)]⟩)
    (atomHashOf ⟨⟨"p", 1⟩, [.const (.num 7)]⟩)
    (atomArgsTokens ⟨⟨"p", 1⟩, [.const (.num 7)]⟩)
    rfl rfl rfl rfl).1

/-- C2 (code bug): the codec does not round-trip the empty Bytes
constant.  `encode(Bytes [])` is the JSON string `#b`, but the
decoder's Bytes branch requires the string to be longer than two
characters, so decoding yields the String constant `#b` — contradicting
the round-trip contract and the repository's own
`TestConstantJSONRoundTrip/bytes_empty` test. -/
theorem claim_C2_empty_bytes_roundtrip_fails :
    marshalConstant (.bytes []) = [.jstr "#b"] ∧
    unmarshalConstant 5 (marshalConstant (.bytes [])) = .ok (.str "#b", []) := by
  exact ⟨rfl, rfl⟩

theorem escapeChar_hexDigit (n : Nat) (h : n < 16) :
    escapeChar (hexDigitChar n) = [hexDigitChar n] := by
  have : ∀ k : Fin 16, escapeChar (hexDigitChar k.val) = [hexDigitChar k.val] := by decide
  exact this ⟨n, h⟩

theorem flatMap_escape_hex (bs : List Nat) :
    (hexOfBytes bs).flatMap escapeChar = hexOfBytes bs := by
  induction bs with
  | nil => rfl
  | cons b bs ih =>
    have h1 : b / 16 % 16 < 16 := Nat.mod_lt _ (by omega)
    have h2 : b % 16 < 16 := Nat.mod_lt _ (by omega)
    simp [hexOfBytes, List.flatMap_cons, escapeChar_hexDigit _ h1, escapeChar_hexDigit _ h2]
      at ih ⊢
    exact ih

/-- Counterexample to C5: the byte string `0x01 0x02` is encoded as the
JSON string `"#b0102"`, which is not of the claimed form `b"<escaped>"`
(its payload does not start with `b"`). -/
theorem claim_C5_counterexample :
    marshalConstant (.bytes [1, 2]) = [.jstr "#b0102"] ∧
    renderConst (.bytes [1, 2]) = "\"#b0102\"" ∧
    strHasPrefix "#b0102" "b\"" = false := by
  exact ⟨rfl, rfl, rfl⟩

/-- C5 as amended: a Bytes constant is encoded as the JSON string
`#b` followed by the lowercase hex digits of its bytes, and the decoder
classifies a decoded JSON string as Bytes precisely when it does not
start with `/`, starts with `#b` and is longer than two characters, in
which case the remainder is read two characters at a time through
`fmt.Sscanf("%02x")` — whose width is only a maximum, so a window whose
first character is a hex digit and second is not yields that single
digit's value, while a window with no hex digit after optional spaces
is an error; in the Go source an odd-length remainder crashes on a
slice bound instead. -/
theorem claim_C5_bytes_hex_encoding (bs : List Nat) (s : String)
    (rest : List JToken) (fuel : Nat)
    (h1 : strHasPrefix s "/" = false)
    (h2 : strHasPrefix s "#b" = true)
    (h3 : s.data.length > 2) :
    marshalConstant (.bytes bs) = [.jstr (String.mk ('#' :: 'b' :: hexOfBytes bs))] ∧
    renderConst (.bytes bs) = String.mk ('"' :: '#' :: 'b' :: hexOfBytes bs ++ ['"']) ∧
    unmarshalConstant (fuel + 1) (.jstr s :: rest) =
      (match hexPairsParse (s.data.drop 2) with
       | some bs2 => .ok (.bytes bs2, rest)
       | none => .error "failed to decode hex bytes") := by
  refine ⟨rfl, ?_, ?_⟩
  · simp [renderConst, render, renderTokens, marshalConstant, renderString, sepFor,
      flatMap_escape_hex, escapeChar]
  · have h3' : 2 < s.length := h3
    simp [unmarshalConstant, h1, h2, h3]
    omega

/-- Witness for C5 at the bytes `0x00 0xff` with the encoded string
`#b00ff`, and at the string `#b1z`, whose window `1z` the `%02x` scan
accepts as the single digit `1`, so it decodes to the byte `0x01`. -/
theorem claim_C5_bytes_hex_encoding_witness :
    strHasPrefix "#b00ff" "/" = false ∧
    strHasPrefix "#b00ff" "#b" = true ∧
    "#b00ff".data.length > 2 ∧
    marshalConstant (.bytes [0, 255]) = [.jstr "#b00ff"] ∧
    unmarshalConstant 1 [.jstr "#b00ff"] = .ok (.bytes [0, 255], []) ∧
    unmarshalConstant 1 [.jstr "#b1z"] = .ok (.bytes [1], []) := by
  have h := claim_C5_bytes_hex_encoding [0, 255] "#b00ff" [] 0 rfl rfl (by decide)
  have h2 := claim_C5_bytes_hex_encoding [1] "#b1z" [] 0 rfl rfl (by decide)
  exact ⟨rfl, rfl, by decide, h.1.trans (by rfl), h.2.2.trans (by rfl),
    h2.2.2.trans (by rfl)⟩

theorem marshalEntries_eq_flatMap : ∀ es : List (Constant × Constant),
    marshalEntries es = es.flatMap fun e => marshalConstant e.1 ++ marshalConstant e.2
  | [] => rfl
  | (k, v) :: es => by
    simp [marshalEntries, List.flatMap_cons, marshalEntries_eq_flatMap es]

/-- Counterexample to C3: the two structurally equal maps
`[/a ↦ 1, /b ↦ 2]` and `[/b ↦ 2, /a ↦ 1]` (entry lists are permutations
of one another) receive different encodings, and the encoding is not an
object with the single key `fn:map` (it starts with `"function"`). -/
theorem claim_C3_counterexample :
    List.Perm
      [((Constant.name "/a"), (Constant.num 1)), ((Constant.name "/b"), (Constant.num 2))]
      [((Constant.name "/b"), (Constant.num 2)), ((Constant.name "/a"), (Constant.num 1))] ∧
    renderConst (.map [(.name "/a", .num 1), (.name "/b", .num 2)]) ≠
      renderConst (.map [(.name "/b", .num 2), (.name "/a", .num 1)]) ∧
    strHasPrefix (renderConst (.map [(.name "/a", .num 1), (.name "/b", .num 2)]))
      (String.mk ['\x7b', '"', 'f', 'n']) = false := by
  exact ⟨List.Perm.swap _ _ _, by decide, by decide⟩

/-- C3 as amended: a Map is encoded as the object
`⦃"function":⦃"symbol":"fn:map","arity":2n⦄,"args":[k1,v1,…]⦄` (a
Struct analogously with `fn:struct`), with entries in in-memory
iteration order and no sorting, so encodings of structurally equal
values that differ in entry order are not byte-identical in general
(witnessed by the final existential). -/
theorem claim_C3_map_encoding_shape :
    (∀ es, marshalConstant (.map es) = specFnObjectTokens "fn:map" es) ∧
    (∀ es, marshalConstant (.strct es) = specFnObjectTokens "fn:struct" es) ∧
    (∃ es es2 : List (Constant × Constant),
      es.Perm es2 ∧ renderConst (.map es) ≠ renderConst (.map es2)) := by
  refine ⟨?_, ?_, ?_⟩
  · intro es
    simp [marshalConstant, specFnObjectTokens, fnHeader, marshalEntries_eq_flatMap]
  · intro es
    simp [marshalConstant, specFnObjectTokens, fnHeader, marshalEntries_eq_flatMap]
  · exact ⟨[(.name "/a", .num 1), (.name "/b", .num 2)],
      [(.name "/b", .num 2), (.name "/a", .num 1)],
      List.Perm.swap _ _ _, by decide⟩

theorem chunksAcc_flatten {α : Type} (n : Nat) : ∀ (xs acc : List α),
    (chunksAcc n xs acc).flatten = acc.reverse ++ xs
  | [], acc => by
    by_cases h : acc.isEmpty
    · simp_all [chunksAcc, List.isEmpty_iff]
    · simp [chunksAcc, h]
  | x :: xs, acc => by
    by_cases h : acc.length + 1 = n
    · simp [chunksAcc, h, chunksAcc_flatten n xs []]
    · simp [chunksAcc, h, chunksAcc_flatten n xs (x :: acc)]

theorem chunksOf_flatten {α : Type} (n : Nat) (xs : List α) :
    (chunksOf n xs).flatten = xs := by
  simpa using chunksAcc_flatten n xs []

theorem chunksAcc_eq {α : Type} (n : Nat) : ∀ (xs acc : List α),
    acc.length < n → (acc ≠ [] ∨ xs ≠ []) →
    chunksAcc n xs acc =
      (acc.reverse ++ xs.take (n - acc.length)) :: chunksOf n (xs.drop (n - acc.length))
  | [], acc, _, hne => by
    have hacc : acc ≠ [] := by
      rcases hne with h | h
      · exact h
      · simp at h
    have : acc.isEmpty = false := by simpa [List.isEmpty_iff] using hacc
    simp [chunksAcc, this, chunksOf]
  | x :: xs, acc, hlt, _ => by
    by_cases h : acc.length + 1 = n
    · have hk : n - acc.length = 1 := by omega
      simp [chunksAcc, h, chunksOf, hk]
    · have hlt2 : (x :: acc).length < n := by simp; omega
      have ih := chunksAcc_eq n xs (x :: acc) hlt2 (Or.inl (by simp))
      have hk : n - acc.length = (n - (acc.length + 1)) + 1 := by omega
      simp only [chunksAcc, h, if_false, ih, chunksOf]
      rw [hk]
      simp [List.take_succ_cons, List.drop_succ_cons]

theorem chunksOf_cons {α : Type} (n : Nat) (hn : 1 ≤ n) (xs : List α) (hne : xs ≠ []) :
    chunksOf n xs = xs.take n :: chunksOf n (xs.drop n) := by
  have := chunksAcc_eq n xs [] (by simpa using hn) (Or.inr hne)
  simpa [chunksOf] using this

theorem txExecBatches_ok (failAt : Nat → Bool) : ∀ (bs : List (List Row)) (i : Nat) (s : Store),
    (∀ j, j < bs.length → failAt (i + j) = false) →
    txExecBatches failAt i s bs = .ok (bs.foldl execBatch s)
  | [], _, _, _ => rfl
  | b :: bs, i, s, h => by
    have h0 : failAt i = false := by simpa using h 0 (by simp)
    have hrest : ∀ j, j < bs.length → failAt (i + 1 + j) = false := by
      intro j hj
      have := h (j + 1) (by simp; omega)
      simpa [Nat.add_assoc, Nat.add_comm 1 j] using this
    simp [txExecBatches, h0, txExecBatches_ok failAt bs (i + 1) (execBatch s b) hrest,
      List.foldl_cons]

theorem foldl_execBatch_flatten : ∀ (bs : List (List Row)) (s : Store),
    bs.foldl execBatch s = bs.flatten.foldl insertRow s
  | [], _ => rfl
  | b :: bs, s => by
    rw [List.foldl_cons, foldl_execBatch_flatten bs (execBatch s b), List.flatten_cons,
      List.foldl_append]
    rfl

theorem txExecBatches_error (failAt : Nat → Bool) : ∀ (bs : List (List Row)) (i : Nat) (s : Store),
    (∃ j, j < bs.length ∧ failAt (i + j) = true) →
    ∃ e, txExecBatches failAt i s bs = .error e
  | [], _, _, h => by
    obtain ⟨j, hj, _⟩ := h
    simp at hj
  | b :: bs, i, s, h => by
    by_cases h0 : failAt i = true
    · exact ⟨"failed to execute batch insert", by simp [txExecBatches, h0]⟩
    · obtain ⟨j, hj, hf⟩ := h
      have hj0 : j ≠ 0 := by
        intro he
        subst he
        simp at hj hf
        simp [hf] at h0
      obtain ⟨j', rfl⟩ : ∃ j', j = j' + 1 := ⟨j - 1, by omega⟩
      have hrec := txExecBatches_error failAt bs (i + 1) (execBatch s b)
        ⟨j', by simp at hj; omega, by simpa [Nat.add_assoc, Nat.add_comm 1 j'] using hf⟩
      obtain ⟨e, he⟩ := hrec
      refine ⟨e, ?_⟩
      simp only [Bool.not_eq_true] at h0
      simp [txExecBatches, h0, he]

/-- C7 as amended: all batches of one `batchInsertFacts` call run
inside a single transaction that commits once at the end.  If every
batch's Exec succeeds, the result is every pre-encoded row inserted in
order; if any batch fails, the whole call errors, and the merge keeps
its pre-transaction store — the rows of earlier successfully executed
batches of the same call do not remain committed. -/
theorem claim_C7_single_transaction (s : Store) (facts : List Atom) (failAt : Nat → Bool) :
    ((∀ i, i < (chunksOf batchSize (facts.filterMap rowOfFact)).length → failAt i = false) →
      batchInsertFacts failAt s facts = .ok ((facts.filterMap rowOfFact).foldl insertRow s)) ∧
    ((∃ i, i < (chunksOf batchSize (facts.filterMap rowOfFact)).length ∧ failAt i = true) →
      ∃ e, batchInsertFacts failAt s facts = .error e) ∧
    (∀ e, batchInsertFacts failAt s facts = .error e → mergeFacts failAt s facts = s) := by
  refine ⟨?_, ?_, ?_⟩
  · intro hok
    by_cases hempty : (facts.filterMap rowOfFact).isEmpty
    · have : facts.filterMap rowOfFact = [] := by simpa [List.isEmpty_iff] using hempty
      simp [batchInsertFacts, hempty, this]
    · have := txExecBatches_ok failAt (chunksOf batchSize (facts.filterMap rowOfFact)) 0 s
        (by intro j hj; simpa using hok j hj)
      simp only [batchInsertFacts]
      rw [if_neg (by simpa using hempty), this, foldl_execBatch_flatten, chunksOf_flatten]
  · intro hfail
    by_cases hempty : (facts.filterMap rowOfFact).isEmpty
    · obtain ⟨i, hi, _⟩ := hfail
      have : facts.filterMap rowOfFact = [] := by simpa [List.isEmpty_iff] using hempty
      rw [this] at hi
      simp [chunksOf, chunksAcc] at hi
    · have := txExecBatches_error failAt (chunksOf batchSize (facts.filterMap rowOfFact)) 0 s
        (by obtain ⟨i, hi, hf⟩ := hfail; exact ⟨i, hi, by simpa using hf⟩)
      obtain ⟨e, he⟩ := this
      exact ⟨e, by simp [batchInsertFacts, hempty, he]⟩
  · intro e he
    by_cases hfe : facts.isEmpty
    · have : facts = [] := by simpa [List.isEmpty_iff] using hfe
      subst this
      simp [batchInsertFacts, chunksOf, chunksAcc] at he
    · simp [mergeFacts, hfe, he]

theorem length_filterMap_all_some {α β : Type} (f : α → Option β) : ∀ l : List α,
    (∀ a ∈ l, (f a).isSome) → (l.filterMap f).length = l.length
  | [], _ => rfl
  | a :: l, h => by
    obtain ⟨b, hb⟩ := Option.isSome_iff_exists.mp (h a (by simp))
    simp [List.filterMap_cons, hb,
      length_filterMap_all_some f l (fun x hx => h x (by simp [hx]))]

/-- Counterexample to C7: a merge of 501 facts into the empty store is
split into two batches; with the first batch's Exec succeeding (the
oracle is false at index 0) and the second failing, the merged store is
empty — the rows of the earlier successfully executed batch did not
remain committed, because the source runs every batch inside one shared
transaction whose rollback undoes them all. -/
theorem claim_C7_counterexample :
    mergeFacts (fun i => i == 1) []
        ((List.range 501).map fun i : Nat => (⟨⟨"p", 1⟩, [.const (.num (i : Int))]⟩ : Atom)) = [] ∧
    (fun i => i == 1) 0 = false ∧
    (chunksOf batchSize
      (((List.range 501).map fun i : Nat => (⟨⟨"p", 1⟩, [.const (.num (i : Int))]⟩ : Atom)).filterMap
        rowOfFact)).length = 2 ∧
    containsFact
      (mergeFacts (fun i => i == 1) []
        ((List.range 501).map fun i : Nat => (⟨⟨"p", 1⟩, [.const (.num (i : Int))]⟩ : Atom)))
      ⟨⟨"p", 1⟩, [.const (.num 0)]⟩ = false := by
  have hsome : ∀ a ∈ (List.range 501).map
      (fun i : Nat => (⟨⟨"p", 1⟩, [.const (.num (i : Int))]⟩ : Atom)), (rowOfFact a).isSome := by
    intro a ha
    obtain ⟨i, _, rfl⟩ := List.mem_map.mp ha
    rfl
  have hlen : (((List.range 501).map
      (fun i : Nat => (⟨⟨"p", 1⟩, [.const (.num (i : Int))]⟩ : Atom))).filterMap rowOfFact).length = 501 := by
    rw [length_filterMap_all_some _ _ hsome]
    simp
  set rows := ((List.range 501).map
      (fun i : Nat => (⟨⟨"p", 1⟩, [.const (.num (i : Int))]⟩ : Atom))).filterMap rowOfFact
    with hrows
  have hne : rows ≠ [] := by
    intro h
    rw [h] at hlen
    simp at hlen
  have hrempty : rows.isEmpty = false := by
    rw [Bool.eq_false_iff]
    simpa [List.isEmpty_iff] using hne
  have h1 : chunksOf batchSize rows = rows.take batchSize :: chunksOf batchSize (rows.drop batchSize) :=
    chunksOf_cons batchSize (by norm_num [batchSize]) rows hne
  have hlen2 : (rows.drop batchSize).length = 1 := by
    simp [hlen, batchSize]
  have hne2 : rows.drop batchSize ≠ [] := by
    intro h
    rw [h] at hlen2
    simp at hlen2
  have h2 : chunksOf batchSize (rows.drop batchSize) =
      (rows.drop batchSize).take batchSize :: chunksOf batchSize ((rows.drop batchSize).drop batchSize) :=
    chunksOf_cons batchSize (by norm_num [batchSize]) _ hne2
  have h3 : (rows.drop batchSize).drop batchSize = [] := by
    apply List.eq_nil_of_length_eq_zero
    simp [batchSize]
    omega
  have hchunks : chunksOf batchSize rows =
      [rows.take batchSize, (rows.drop batchSize).take batchSize] := by
    rw [h1, h2, h3]
    rfl
  have hbatch : batchInsertFacts (fun i => i == 1) []
      ((List.range 501).map fun i : Nat => (⟨⟨"p", 1⟩, [.const (.num (i : Int))]⟩ : Atom)) =
      .error "failed to execute batch insert" := by
    simp only [batchInsertFacts, ← hrows]
    rw [if_neg (by simp [hrempty]), hchunks]
    simp [txExecBatches]
  have hflen : ((List.range 501).map
      (fun i : Nat => (⟨⟨"p", 1⟩, [.const (.num (i : Int))]⟩ : Atom))).length = 501 := by simp
  have hfne : ((List.range 501).map
      (fun i : Nat => (⟨⟨"p", 1⟩, [.const (.num (i : Int))]⟩ : Atom))).isEmpty = false := by
    rw [Bool.eq_false_iff]
    have hnil : ((List.range 501).map
        (fun i : Nat => (⟨⟨"p", 1⟩, [.const (.num (i : Int))]⟩ : Atom))) ≠ [] := by
      intro h
      rw [h] at hflen
      simp at hflen
    simp [List.isEmpty_iff, hnil]
  have hmerge : mergeFacts (fun i => i == 1) []
      ((List.range 501).map fun i : Nat => (⟨⟨"p", 1⟩, [.const (.num (i : Int))]⟩ : Atom)) = [] := by
    simp [mergeFacts, hfne, hbatch]
  refine ⟨hmerge, rfl, ?_, ?_⟩
  · rw [hchunks]
    rfl
  · rw [hmerge]
    rfl

theorem sorted_key_eq {α : Type} (f : α → Nat) :
    ∀ (l1 l2 : List α), l1.Perm l2 →
      l1.Sorted (fun a b => f a ≤ f b) → l2.Sorted (fun a b => f a ≤ f b) →
      (l1.map f).Nodup → l1 = l2
  | [], l2, hp, _, _, _ => (List.Perm.nil_eq hp).symm.symm
  | x :: l1, l2, hp, hs1, hs2, hnd => by
    cases l2 with
    | nil =>
      have := List.Perm.eq_nil hp
      simp at this
    | cons y l2 =>
      have hxy : x = y := by
        have hymem : y ∈ x :: l1 := hp.mem_iff.mpr (by simp)
        rcases List.mem_cons.mp hymem with h | hy1
        · exact h.symm
        · have hxmem : x ∈ y :: l2 := hp.mem_iff.mp (by simp)
          rcases List.mem_cons.mp hxmem with h2 | hx2
          · exact h2
          · exfalso
            have hle1 : f x ≤ f y := (List.sorted_cons.mp hs1).1 y hy1
            have hle2 : f y ≤ f x := (List.sorted_cons.mp hs2).1 x hx2
            have hfeq : f x = f y := Nat.le_antisymm hle1 hle2
            have : f x ∉ l1.map f := (List.nodup_cons.mp (by simpa using hnd)).1
            exact this (hfeq ▸ List.mem_map_of_mem f hy1)
      subst hxy
      have hp' := hp.cons_inv
      have h1 := (List.sorted_cons.mp hs1).2
      have h2 := (List.sorted_cons.mp hs2).2
      have hnd' : (l1.map f).Nodup := (List.nodup_cons.mp (by simpa using hnd)).2
      rw [sorted_key_eq f l1 l2 hp' h1 h2 hnd']

theorem insertionSort_entries_eq (es1 es2 : List (Constant × Constant))
    (hp : es1.Perm es2) (hnd : (es1.map fun e => constHash e.1).Nodup) :
    List.insertionSort entryLe es1 = List.insertionSort entryLe es2 := by
  apply sorted_key_eq (fun e : Constant × Constant => constHash e.1)
  · exact (List.perm_insertionSort entryLe es1).trans
      (hp.trans (List.perm_insertionSort entryLe es2).symm)
  · exact List.sorted_insertionSort entryLe es1
  · exact List.sorted_insertionSort entryLe es2
  · exact (((List.perm_insertionSort entryLe es1).map fun e => constHash e.1).nodup_iff).mpr hnd

theorem szudzik_eq_specPair (a b : Nat) : szudzikElegantPair a b = specPair a b := by
  simp [szudzikElegantPair, specPair, ge_iff_le]

theorem partStep_eq_specPartFold (acc : Nat) (c : Constant) :
    partStep acc c = specPartFold acc c := by
  simp [partStep, specPartFold, szudzik_eq_specPair]

theorem flattenPairs_eq_flatMap : ∀ es : List (Constant × Constant),
    flattenPairs es = es.flatMap fun e => [e.1, e.2]
  | [] => rfl
  | (k, v) :: es => by simp [flattenPairs, flattenPairs_eq_flatMap es]

theorem foldl_partStep_eq_spec : ∀ (parts : List Constant) (acc : Nat),
    parts.foldl partStep acc = parts.foldl specPartFold acc
  | [], _ => rfl
  | p :: parts, acc => by
    simp [List.foldl_cons, partStep_eq_specPartFold, foldl_partStep_eq_spec parts]

theorem argHashFold_eq_spec (acc : Nat) (c : Constant) :
    argHashFold acc c = specArgFold acc c := by
  cases c <;>
    simp [argHashFold, specArgFold, getSortedConstants, flattenPairs_eq_flatMap,
      foldl_partStep_eq_spec, partStep_eq_specPartFold]

theorem foldl_argHashFold_eq_spec : ∀ (cs : List Constant) (acc : Nat),
    cs.foldl argHashFold acc = cs.foldl specArgFold acc
  | [], _ => rfl
  | c :: cs, acc => by
    simp [List.foldl_cons, argHashFold_eq_spec, foldl_argHashFold_eq_spec cs]

theorem argHashFold_congr (c1 c2 : Constant) (h : argOrderEquiv c1 c2)
    (hd : argKeysDistinct c1) (acc : Nat) : argHashFold acc c1 = argHashFold acc c2 := by
  rcases h with rfl | ⟨es1, es2, rfl, rfl, hp⟩ | ⟨es1, es2, rfl, rfl, hp⟩
  · rfl
  · simp only [argHashFold, getSortedConstants]
    rw [insertionSort_entries_eq es1 es2 hp hd]
  · simp only [argHashFold, getSortedConstants]
    rw [insertionSort_entries_eq es1 es2 hp hd]

theorem foldl_argHashFold_congr : ∀ (cs1 cs2 : List Constant),
    List.Forall₂ argOrderEquiv cs1 cs2 → (∀ c ∈ cs1, argKeysDistinct c) →
    ∀ acc, cs1.foldl argHashFold acc = cs2.foldl argHashFold acc
  | _, _, .nil, _, _ => rfl
  | _, _, .cons hc hrest, hd, acc => by
    rw [List.foldl_cons, List.foldl_cons, argHashFold_congr _ _ hc (hd _ (by simp)),
      foldl_argHashFold_congr _ _ hrest (fun c hcin => hd c (by simp [hcin]))]

theorem constArgs_forall2 : ∀ (ts1 ts2 : List BaseTerm), List.Forall₂ termOrderEquiv ts1 ts2 →
    (constArgs ts1 = .error "evaluation produced something that is not a value" ∧
     constArgs ts2 = .error "evaluation produced something that is not a value") ∨
    (∃ cs1 cs2, constArgs ts1 = .ok cs1 ∧ constArgs ts2 = .ok cs2 ∧
      List.Forall₂ argOrderEquiv cs1 cs2)
  | _, _, .nil => Or.inr ⟨[], [], rfl, rfl, .nil⟩
  | t1 :: ts1, t2 :: ts2, .cons hc hrest => by
    cases t1 with
    | var v =>
      have ht2 : t2 = .var v := by
        cases t2 with
        | const c => simp [termOrderEquiv] at hc
        | var w =>
          simp [termOrderEquiv] at hc
          simp [hc]
      subst ht2
      exact Or.inl ⟨rfl, rfl⟩
    | const c1 =>
      cases t2 with
      | var w => simp [termOrderEquiv] at hc
      | const c2 =>
        rcases constArgs_forall2 ts1 ts2 hrest with ⟨he1, he2⟩ | ⟨cs1, cs2, ho1, ho2, hf⟩
        · exact Or.inl ⟨by simp [constArgs, he1, Except.map], by simp [constArgs, he2, Except.map]⟩
        · exact Or.inr ⟨c1 :: cs1, c2 :: cs2, by simp [constArgs, ho1, Except.map],
            by simp [constArgs, ho2, Except.map], .cons (by simpa [termOrderEquiv] using hc) hf⟩

theorem constArgs_mem : ∀ (ts : List BaseTerm) (cs : List Constant),
    constArgs ts = .ok cs → ∀ c ∈ cs, BaseTerm.const c ∈ ts
  | [], cs, h, c, hc => by
    simp [constArgs] at h
    subst h
    simp at hc
  | .var v :: ts, cs, h, c, hc => by
    simp [constArgs] at h
  | .const c0 :: ts, cs, h, c, hc => by
    cases hr : constArgs ts with
    | error e => simp [constArgs, hr, Except.map] at h
    | ok cs0 =>
      simp [constArgs, hr, Except.map] at h
      subst h
      rcases List.mem_cons.mp hc with rfl | hcs
      · simp
      · simp [constArgs_mem ts cs0 hr c hcs]

/-- C4: the atom fingerprint is computed exactly as specified — the
accumulator starts at `pair(H(symbol), arity)`, every argument folds
`pair(acc, pair(H(part), type_tag(part)))`, Map/Struct arguments
folding their entries sorted by key hash (key then value), and the
final unsigned value is reinterpreted as signed (first conjunct, against
`specAtomFingerprint`, the algorithm written from the specification's
wording).  Consequently two atoms that are structurally equal — in
particular atoms whose Map/Struct arguments list their entries in
different orders — receive equal fingerprints, provided no two distinct
keys of such an argument share a 64-bit key hash (second conjunct). -/
theorem claim_C4_fingerprint_spec_and_order_insensitive (a1 a2 : Atom)
    (hEq : atomOrderEquiv a1 a2) (hDist : atomKeysDistinct a1) :
    (atomToRowForInsert a1).map Prod.fst =
      (constArgs a1.args).map (specAtomFingerprint a1.predicate) ∧
    (atomToRowForInsert a1).map Prod.fst = (atomToRowForInsert a2).map Prod.fst := by
  constructor
  · cases hargs : constArgs a1.args with
    | error e => simp [atomToRowForInsert, hargs, Except.map]
    | ok cs =>
      simp [atomToRowForInsert, hargs, Except.map, specAtomFingerprint,
        foldl_argHashFold_eq_spec, atomHashStart, szudzik_eq_specPair]
  · rcases constArgs_forall2 a1.args a2.args hEq.2 with ⟨he1, he2⟩ |
      ⟨cs1, cs2, ho1, ho2, hf⟩
    · simp [atomToRowForInsert, he1, he2, Except.map]
    · have hdcs : ∀ c ∈ cs1, argKeysDistinct c := fun c hc =>
        hDist c (constArgs_mem a1.args cs1 ho1 c hc)
      simp [atomToRowForInsert, ho1, ho2, Except.map, hEq.1,
        foldl_argHashFold_congr cs1 cs2 hf hdcs]

/-- Witness for C4: the atoms `d(map[/a ↦ 1, /b ↦ "foo"])` and
`d(map[/b ↦ "foo", /a ↦ 1])` are order-equivalent with distinct key
hashes and receive the same row fingerprint. -/
theorem claim_C4_fingerprint_witness :
    (atomToRowForInsert
        ⟨⟨"d", 1⟩, [.const (.map [(.name "/a", .num 1), (.name "/b", .str "foo")])]⟩).map
        Prod.fst =
      (atomToRowForInsert
        ⟨⟨"d", 1⟩, [.const (.map [(.name "/b", .str "foo"), (.name "/a", .num 1)])]⟩).map
        Prod.fst := by
  refine (claim_C4_fingerprint_spec_and_order_insensitive
    ⟨⟨"d", 1⟩, [.const (.map [(.name "/a", .num 1), (.name "/b", .str "foo")])]⟩
    ⟨⟨"d", 1⟩, [.const (.map [(.name "/b", .str "foo"), (.name "/a", .num 1)])]⟩
    ⟨rfl, .cons (Or.inr (Or.inl ⟨_, _, rfl, rfl, List.Perm.swap _ _ _⟩)) .nil⟩
    ?_).2
  intro c hc
  simp only [List.mem_singleton] at hc
  cases hc
  show ([constHash (.name "/a"), constHash (.name "/b")]).Nodup
  decide

theorem marshal_head (c : Constant) :
    ∃ t ts, marshalConstant c = t :: ts ∧ t ≠ JToken.endArray := by
  cases c <;> exact ⟨_, _, rfl, by simp⟩

theorem unmarshalListElems_cons_of_ne (f : Nat) (t : JToken) (ts : List JToken)
    (h : t ≠ .endArray) :
    unmarshalListElems (f + 1) (t :: ts) =
      (do
        let (c, rest) ← unmarshalConstant f (t :: ts)
        let (cs, rest1) ← unmarshalListElems f rest
        .ok (c :: cs, rest1)) := by
  cases t <;> simp_all [unmarshalListElems]

theorem hexCharVal_hexDigitChar (d : Nat) (h : d < 16) :
    hexCharVal (hexDigitChar d) = some d := by
  have : ∀ k : Fin 16, hexCharVal (hexDigitChar k.val) = some k.val := by decide
  exact this ⟨d, h⟩

theorem sscanfHex02x_hexDigits (b : Nat) (h : b < 256) :
    sscanfHex02x [hexDigitChar (b / 16 % 16), hexDigitChar (b % 16)] = some b := by
  have hall : ∀ k : Fin 256,
      sscanfHex02x [hexDigitChar (k.val / 16 % 16), hexDigitChar (k.val % 16)] =
        some k.val := by
    set_option maxRecDepth 4096 in decide
  exact hall ⟨b, h⟩

theorem hexPairsParse_hexOfBytes : ∀ bs : List Nat, bs.all (· < 256) = true →
    hexPairsParse (hexOfBytes bs) = some bs
  | [], _ => rfl
  | b :: bs, h => by
    have hb : b < 256 := by
      simp [List.all_cons] at h
      exact h.1
    have hrest : bs.all (· < 256) = true := by
      simp [List.all_cons] at h
      simpa using h.2
    have key : hexOfBytes (b :: bs) =
        hexDigitChar (b / 16 % 16) :: hexDigitChar (b % 16) :: hexOfBytes bs := rfl
    rw [key]
    simp only [hexPairsParse, sscanfHex02x_hexDigits b hb,
      hexPairsParse_hexOfBytes bs hrest, Option.bind_some, Option.some_bind]
    rfl

theorem hexOfBytes_length : ∀ bs : List Nat, (hexOfBytes bs).length = 2 * bs.length
  | [] => rfl
  | b :: bs => by
    rw [show hexOfBytes (b :: bs) =
      hexDigitChar (b / 16 % 16) :: hexDigitChar (b % 16) :: hexOfBytes bs from rfl]
    simp [hexOfBytes_length bs]
    omega

theorem exceptBind_ok {α β : Type} (a : α) (f : α → Except String β) :
    ((Except.ok a : Except String α) >>= f) = f a := rfl

theorem flattenPairs_length : ∀ es : List (Constant × Constant),
    (flattenPairs es).length = 2 * es.length
  | [] => rfl
  | (k, v) :: es => by simp [flattenPairs, flattenPairs_length es]; omega

theorem pairUp_flattenPairs : ∀ es : List (Constant × Constant),
    pairUp (flattenPairs es) = es
  | [] => rfl
  | (k, v) :: es => by simp [flattenPairs, pairUp, pairUp_flattenPairs es]

theorem unmarshal_fnObject (g : Nat) (sym : String) (n : Int) (ts : List JToken) :
    unmarshalConstant (g + 6) (.beginObject :: .jstr "function" :: .beginObject ::
        .jstr "symbol" :: .jstr sym :: .jstr "arity" :: .jint n :: .endObject ::
        .jstr "args" :: .beginArray :: ts) =
      (do
        let (xs, rest2) ← unmarshalListElems (g + 3) ts
        match rest2 with
        | .endArray :: rest3 => unmarshalObjFields (g + 3) rest3 sym n.toNat xs
        | _ => .error "failed to read args array end") := by
  show unmarshalObjFields (g + 5) _ "" 0 [] = _
  rw [unmarshalObjFields]
  show (do
    let (sym1, ar1, rest2) ← unmarshalFnFields (g + 4) (.jstr "symbol" :: .jstr sym ::
      .jstr "arity" :: .jint n :: .endObject :: .jstr "args" :: .beginArray :: ts) "" 0
    unmarshalObjFields (g + 4) rest2 sym1 ar1 []) = _
  rw [unmarshalFnFields]
  show (do
    let (sym1, ar1, rest2) ← unmarshalFnFields (g + 3) (.jstr "arity" :: .jint n ::
      .endObject :: .jstr "args" :: .beginArray :: ts) (tokString (.jstr sym)) 0
    unmarshalObjFields (g + 4) rest2 sym1 ar1 []) = _
  rw [unmarshalFnFields]
  show (do
    let (sym1, ar1, rest2) ← unmarshalFnFields (g + 2) (.endObject :: .jstr "args" ::
      .beginArray :: ts) (tokString (.jstr sym)) (tokInt (.jint n)).toNat
    unmarshalObjFields (g + 4) rest2 sym1 ar1 []) = _
  rw [unmarshalFnFields]
  show unmarshalObjFields (g + 4) (.jstr "args" :: .beginArray :: ts)
    (tokString (.jstr sym)) (tokInt (.jint n)).toNat [] = _
  rw [unmarshalObjFields]
  simp [tokString, tokInt]

theorem validName_prefix (s : String) (h : validName s = true) :
    strHasPrefix s "/" = true := by
  simp [validName] at h
  exact h.1

mutual

theorem stable_roundtrip : ∀ c : Constant, stableConst c = true →
    ∀ (fuel : Nat) (rest : List JToken), (marshalConstant c).length ≤ fuel →
    unmarshalConstant fuel (marshalConstant c ++ rest) = .ok (c, rest)
  | .name s, hst, fuel, rest, hf => by
    obtain ⟨f, rfl⟩ : ∃ f, fuel = f + 1 := ⟨fuel - 1, by simp [marshalConstant] at hf; omega⟩
    have hv : validName s = true := by simpa [stableConst] using hst
    simp [marshalConstant, unmarshalConstant, validName_prefix s hv, hv]
  | .str s, hst, fuel, rest, hf => by
    obtain ⟨f, rfl⟩ : ∃ f, fuel = f + 1 := ⟨fuel - 1, by simp [marshalConstant] at hf; omega⟩
    simp only [stableConst, Bool.and_eq_true, Bool.not_eq_true'] at hst
    have e1 : marshalConstant (.str s) ++ rest = .jstr s :: rest := rfl
    rw [e1]
    simp only [unmarshalConstant]
    rw [if_neg (by simp [hst.1])]
    rw [if_neg ?hcond]
    case hcond =>
      rintro ⟨h1, h2⟩
      have := hst.2
      rw [Bool.and_eq_false_iff] at this
      rcases this with h | h
      · simp at h
        have hd : s.data.length = s.length := rfl
        omega
      · simp [h2] at h
  | .bytes bs, hst, fuel, rest, hf => by
    obtain ⟨f, rfl⟩ : ∃ f, fuel = f + 1 := ⟨fuel - 1, by simp [marshalConstant] at hf; omega⟩
    simp only [stableConst, Bool.and_eq_true, Bool.not_eq_true'] at hst
    have hne : bs ≠ [] := by
      intro h
      rw [h] at hst
      simp at hst
    have hlen : bs.length ≥ 1 := by
      cases bs with
      | nil => exact absurd rfl hne
      | cons b bs => simp
    have hpre1 : strHasPrefix (String.mk ('#' :: 'b' :: hexOfBytes bs)) "/" = false := by
      show List.isPrefixOf ['/'] ('#' :: 'b' :: hexOfBytes bs) = false
      simp [List.isPrefixOf]
    have hpre2 : strHasPrefix (String.mk ('#' :: 'b' :: hexOfBytes bs)) "#b" = true := by
      show List.isPrefixOf ['#', 'b'] ('#' :: 'b' :: hexOfBytes bs) = true
      simp [List.isPrefixOf]
    have hlen2 : (String.mk ('#' :: 'b' :: hexOfBytes bs)).data.length > 2 := by
      show ('#' :: 'b' :: hexOfBytes bs).length > 2
      simp [hexOfBytes_length]
      omega
    have hdrop : (String.mk ('#' :: 'b' :: hexOfBytes bs)).data.drop 2 = hexOfBytes bs := rfl
    have e1 : marshalConstant (.bytes bs) ++ rest =
        .jstr (String.mk ('#' :: 'b' :: hexOfBytes bs)) :: rest := rfl
    rw [e1]
    simp only [unmarshalConstant]
    rw [if_neg (by simp [hpre1]), if_pos ⟨hlen2, by simp [hpre2]⟩, hdrop,
      hexPairsParse_hexOfBytes bs hst.2]
  | .num n, _, fuel, rest, hf => by
    obtain ⟨f, rfl⟩ : ∃ f, fuel = f + 1 := ⟨fuel - 1, by simp [marshalConstant] at hf; omega⟩
    simp [marshalConstant, unmarshalConstant]
  | .list xs, hst, fuel, rest, hf => by
    obtain ⟨f, rfl⟩ : ∃ f, fuel = f + 1 := ⟨fuel - 1, by simp [marshalConstant] at hf; omega⟩
    have hlt : (marshalConstList xs).length < f := by
      simp [marshalConstant] at hf
      omega
    have helems := stable_roundtrip_list xs (by simpa [stableConst] using hst) f rest hlt
    have harr : marshalConstant (.list xs) ++ rest =
        .beginArray :: (marshalConstList xs ++ .endArray :: rest) := by
      simp [marshalConstant]
    rw [harr]
    simp only [unmarshalConstant, helems, exceptBind_ok]
  | .pair a b, hst, fuel, rest, hf => by
    simp only [stableConst, Bool.and_eq_true] at hst
    have hlena : 1 ≤ (marshalConstant a).length := by
      obtain ⟨t, ts, hts, _⟩ := marshal_head a
      simp [hts]
    have hlenb : 1 ≤ (marshalConstant b).length := by
      obtain ⟨t, ts, hts, _⟩ := marshal_head b
      simp [hts]
    have hflen : 12 + (marshalConstant a).length + (marshalConstant b).length ≤ fuel := by
      simp [marshalConstant, fnHeader] at hf
      omega
    obtain ⟨g, rfl⟩ : ∃ g, fuel = g + 6 := ⟨fuel - 6, by omega⟩
    have harr : marshalConstant (.pair a b) ++ rest =
        .beginObject :: .jstr "function" :: .beginObject :: .jstr "symbol" ::
        .jstr "fn:pair" :: .jstr "arity" :: .jint 2 :: .endObject :: .jstr "args" ::
        .beginArray ::
        (marshalConstant a ++ (marshalConstant b ++ (.endArray :: .endObject :: rest))) := by
      simp [marshalConstant, fnHeader]
    rw [harr, unmarshal_fnObject]
    obtain ⟨g1, hg1⟩ : ∃ g1, g + 3 = g1 + 1 := ⟨g + 2, rfl⟩
    obtain ⟨ta, tsa, htsa, hnea⟩ := marshal_head a
    rw [hg1, htsa, List.cons_append, unmarshalListElems_cons_of_ne g1 ta _ hnea, ← List.cons_append,
      ← htsa]
    rw [stable_roundtrip a hst.1 g1 _ (by omega)]
    simp only [exceptBind_ok]
    obtain ⟨g2, hg2⟩ : ∃ g2, g1 = g2 + 1 := ⟨g1 - 1, by omega⟩
    obtain ⟨tb, tsb, htsb, hneb⟩ := marshal_head b
    rw [hg2, htsb, List.cons_append, unmarshalListElems_cons_of_ne g2 tb _ hneb,
      ← List.cons_append, ← htsb]
    rw [stable_roundtrip b hst.2 g2 _ (by omega)]
    simp only [exceptBind_ok]
    obtain ⟨g3, hg3⟩ : ∃ g3, g2 = g3 + 1 := ⟨g2 - 1, by omega⟩
    rw [hg3]
    simp only [unmarshalListElems, exceptBind_ok]
    rw [show g3 + 1 + 1 + 1 = (g3 + 1 + 1) + 1 from rfl]
    simp only [unmarshalObjFields]
    simp [finishFnObject]
  | .map es, hst, fuel, rest, hf => by
    have hflen : 12 + (marshalEntries es).length ≤ fuel := by
      simp [marshalConstant, fnHeader] at hf
      omega
    obtain ⟨g, rfl⟩ : ∃ g, fuel = g + 6 := ⟨fuel - 6, by omega⟩
    have harr : marshalConstant (.map es) ++ rest =
        .beginObject :: .jstr "function" :: .beginObject :: .jstr "symbol" ::
        .jstr "fn:map" :: .jstr "arity" :: .jint (2 * es.length) :: .endObject ::
        .jstr "args" :: .beginArray ::
        (marshalEntries es ++ .endArray :: .endObject :: rest) := by
      simp [marshalConstant, fnHeader]
    rw [harr, unmarshal_fnObject]
    rw [stable_roundtrip_entries es (by simpa [stableConst] using hst) (g + 3)
      (.endObject :: rest) (by omega)]
    simp only [exceptBind_ok]
    rw [show g + 3 = (g + 2) + 1 from rfl]
    simp only [unmarshalObjFields]
    simp [finishFnObject, flattenPairs_length, pairUp_flattenPairs, Nat.mul_mod_right]
    omega
  | .strct es, hst, fuel, rest, hf => by
    have hflen : 12 + (marshalEntries es).length ≤ fuel := by
      simp [marshalConstant, fnHeader] at hf
      omega
    obtain ⟨g, rfl⟩ : ∃ g, fuel = g + 6 := ⟨fuel - 6, by omega⟩
    have harr : marshalConstant (.strct es) ++ rest =
        .beginObject :: .jstr "function" :: .beginObject :: .jstr "symbol" ::
        .jstr "fn:struct" :: .jstr "arity" :: .jint (2 * es.length) :: .endObject ::
        .jstr "args" :: .beginArray ::
        (marshalEntries es ++ .endArray :: .endObject :: rest) := by
      simp [marshalConstant, fnHeader]
    rw [harr, unmarshal_fnObject]
    rw [stable_roundtrip_entries es (by simpa [stableConst] using hst) (g + 3)
      (.endObject :: rest) (by omega)]
    simp only [exceptBind_ok]
    rw [show g + 3 = (g + 2) + 1 from rfl]
    simp only [unmarshalObjFields]
    simp [finishFnObject, flattenPairs_length, pairUp_flattenPairs, Nat.mul_mod_right]
    omega

theorem stable_roundtrip_list : ∀ cs : List Constant, stableList cs = true →
    ∀ (fuel : Nat) (rest : List JToken), (marshalConstList cs).length < fuel →
    unmarshalListElems fuel (marshalConstList cs ++ .endArray :: rest) =
      .ok (cs, .endArray :: rest)
  | [], _, fuel, rest, hf => by
    obtain ⟨f, rfl⟩ : ∃ f, fuel = f + 1 := ⟨fuel - 1, by omega⟩
    simp [marshalConstList, unmarshalListElems]
  | c :: cs, hst, fuel, rest, hf => by
    simp only [stableList, Bool.and_eq_true] at hst
    obtain ⟨f, rfl⟩ : ∃ f, fuel = f + 1 := ⟨fuel - 1, by omega⟩
    have hlenc : 1 ≤ (marshalConstant c).length := by
      obtain ⟨t, ts, hts, _⟩ := marshal_head c
      simp [hts]
    have hlen : (marshalConstant c).length + (marshalConstList cs).length < f + 1 := by
      simp [marshalConstList] at hf
      omega
    obtain ⟨t, ts, hts, hne⟩ := marshal_head c
    have harr : marshalConstList (c :: cs) ++ .endArray :: rest =
        t :: (ts ++ (marshalConstList cs ++ .endArray :: rest)) := by
      simp [marshalConstList, hts]
    rw [harr, unmarshalListElems_cons_of_ne f t _ hne]
    have hc : unmarshalConstant f (t :: (ts ++ (marshalConstList cs ++ .endArray :: rest))) =
        .ok (c, marshalConstList cs ++ .endArray :: rest) := by
      have := stable_roundtrip c hst.1 f (marshalConstList cs ++ .endArray :: rest) (by omega)
      rw [hts] at this
      simpa using this
    rw [hc]
    simp only [exceptBind_ok]
    rw [stable_roundtrip_list cs hst.2 f rest (by omega)]
    simp only [exceptBind_ok]

theorem stable_roundtrip_entries : ∀ es : List (Constant × Constant),
    stableEntries es = true →
    ∀ (fuel : Nat) (rest : List JToken), (marshalEntries es).length < fuel →
    unmarshalListElems fuel (marshalEntries es ++ .endArray :: rest) =
      .ok (flattenPairs es, .endArray :: rest)
  | [], _, fuel, rest, hf => by
    obtain ⟨f, rfl⟩ : ∃ f, fuel = f + 1 := ⟨fuel - 1, by omega⟩
    simp [marshalEntries, flattenPairs, unmarshalListElems]
  | (k, v) :: es, hst, fuel, rest, hf => by
    simp only [stableEntries, Bool.and_eq_true] at hst
    obtain ⟨f, rfl⟩ : ∃ f, fuel = f + 1 := ⟨fuel - 1, by omega⟩
    have hlenk : 1 ≤ (marshalConstant k).length := by
      obtain ⟨t, ts, hts, _⟩ := marshal_head k
      simp [hts]
    have hlenv : 1 ≤ (marshalConstant v).length := by
      obtain ⟨t, ts, hts, _⟩ := marshal_head v
      simp [hts]
    have hlen : (marshalConstant k).length + (marshalConstant v).length +
        (marshalEntries es).length < f + 1 := by
      simp [marshalEntries] at hf
      omega
    obtain ⟨tk, tsk, htsk, hnek⟩ := marshal_head k
    have harr : marshalEntries ((k, v) :: es) ++ .endArray :: rest =
        tk :: (tsk ++ (marshalConstant v ++ (marshalEntries es ++ .endArray :: rest))) := by
      simp [marshalEntries, htsk]
    rw [harr, unmarshalListElems_cons_of_ne f tk _ hnek]
    have hk : unmarshalConstant f
        (tk :: (tsk ++ (marshalConstant v ++ (marshalEntries es ++ .endArray :: rest)))) =
        .ok (k, marshalConstant v ++ (marshalEntries es ++ .endArray :: rest)) := by
      have := stable_roundtrip k hst.1.1 f
        (marshalConstant v ++ (marshalEntries es ++ .endArray :: rest)) (by omega)
      rw [htsk] at this
      simpa using this
    rw [hk]
    simp only [exceptBind_ok]
    obtain ⟨f1, hf1⟩ : ∃ f1, f = f1 + 1 := ⟨f - 1, by omega⟩
    obtain ⟨tv, tsv, htsv, hnev⟩ := marshal_head v
    rw [hf1, htsv, List.cons_append, unmarshalListElems_cons_of_ne f1 tv _ hnev,
      ← List.cons_append, ← htsv]
    rw [stable_roundtrip v hst.1.2 f1 _ (by omega)]
    simp only [exceptBind_ok]
    rw [stable_roundtrip_entries es hst.2 f1 rest (by omega)]
    simp only [exceptBind_ok]
    simp [flattenPairs]

end

/-- Counterexample to C8: a store holding the single atom `p(b'')`
(empty Bytes argument) does not survive an export/import round-trip.
The stored `args` decode as the String `#b` during export, so the
re-imported store answers `contains` false for the original atom even
though the source store answers true. -/
theorem claim_C8_counterexample :
    containsFact (addFact [] ⟨⟨"p", 1⟩, [.const (.bytes [])]⟩).1
      ⟨⟨"p", 1⟩, [.const (.bytes [])]⟩ = true ∧
    (writeTo (addFact [] ⟨⟨"p", 1⟩, [.const (.bytes [])]⟩).1).map
      (fun x => (readFrom noFailure [] x.1).map
        (fun s2 => containsFact s2 ⟨⟨"p", 1⟩, [.const (.bytes [])]⟩)) =
      .ok (.ok false) := by
  exact ⟨rfl, rfl⟩

/-- Witness for C7: a one-atom batch commits when no Exec fails, and
errors when the first Exec fails. -/
theorem claim_C7_single_transaction_witness :
    batchInsertFacts noFailure [] [⟨⟨"q", 1⟩, [.const (.num 1)]⟩] =
      .ok (([⟨⟨"q", 1⟩, [.const (.num 1)]⟩].filterMap rowOfFact).foldl insertRow []) ∧
    (∃ e, batchInsertFacts (fun i => i == 0) [] [⟨⟨"q", 1⟩, [.const (.num 1)]⟩] = .error e) := by
  constructor
  · exact (claim_C7_single_transaction [] [⟨⟨"q", 1⟩, [.const (.num 1)]⟩] noFailure).1
      (fun i _ => rfl)
  · exact (claim_C7_single_transaction [] [⟨⟨"q", 1⟩, [.const (.num 1)]⟩] (fun i => i == 0)).2.1
      ⟨0, by decide, rfl⟩

theorem char_toNat_inj (a b : Char) (h : a.toNat = b.toNat) : a = b := by
  rw [← Char.ofNat_toNat a, ← Char.ofNat_toNat b, h]

theorem toNat_digitChar (n : Nat) (h : n < 10) : (Char.ofNat (48 + n)).toNat = 48 + n := by
  have hv : Nat.isValidChar (48 + n) := Or.inl (by omega)
  simp [Char.ofNat, hv, Char.toNat, Char.ofNatAux, UInt32.toNat, UInt32.ofNat]

theorem digitVal_digitChar (n : Nat) (h : n < 10) :
    digitVal (Char.ofNat (48 + n)) = some n := by
  unfold digitVal
  rw [toNat_digitChar n h, if_pos ⟨by omega, by omega⟩]
  congr 1
  omega

theorem natDigitsF_irrel : ∀ f1 f2 n : Nat, n < f1 → n < f2 →
    natDigitsF f1 n = natDigitsF f2 n
  | f1 + 1, f2 + 1, n, h1, h2 => by
    by_cases h : n < 10
    · simp [natDigitsF, h]
    · have hlt : n / 10 < n := Nat.div_lt_self (by omega) (by omega)
      simp only [natDigitsF, h, if_false]
      rw [natDigitsF_irrel f1 f2 (n / 10) (by omega) (by omega)]

theorem natRepr_shift (n : Nat) (h : 10 ≤ n) :
    natRepr n = natRepr (n / 10) ++ [Char.ofNat (48 + n % 10)] := by
  have hlt : n / 10 < n := Nat.div_lt_self (by omega) (by omega)
  unfold natRepr
  rw [show natDigitsF (n + 1) n = natDigitsF n (n / 10) ++ [Char.ofNat (48 + n % 10)] by
    simp [natDigitsF, show ¬ n < 10 by omega]]
  rw [natDigitsF_irrel n (n / 10 + 1) (n / 10) (by omega) (by omega)]

theorem natRepr_small (n : Nat) (h : n < 10) : natRepr n = [Char.ofNat (48 + n)] := by
  simp [natRepr, natDigitsF, h]

theorem natRepr_digits (n : Nat) : ∀ c ∈ natRepr n, 48 ≤ c.toNat ∧ c.toNat ≤ 57 := by
  induction n using Nat.strong_induction_on with
  | _ n ih =>
    by_cases h : n < 10
    · rw [natRepr_small n h]
      intro c hc
      simp at hc
      rw [hc, toNat_digitChar n h]
      omega
    · rw [natRepr_shift n (by omega)]
      intro c hc
      rcases List.mem_append.mp hc with hc1 | hc1
      · exact ih (n / 10) (Nat.div_lt_self (by omega) (by omega)) c hc1
      · simp at hc1
        rw [hc1, toNat_digitChar (n % 10) (by omega)]
        omega

theorem natRepr_ne_nil (n : Nat) : natRepr n ≠ [] := by
  by_cases h : n < 10
  · simp [natRepr_small n h]
  · simp [natRepr_shift n (by omega)]

theorem parseNatAux_append (ys : List Char) : ∀ (xs : List Char) (acc : Nat),
    parseNatAux acc (xs ++ ys) =
      (match parseNatAux acc xs with
       | some m => parseNatAux m ys
       | none => none)
  | [], acc => by simp [parseNatAux]
  | c :: xs, acc => by
    cases h : digitVal c <;>
      simp [parseNatAux, h, parseNatAux_append ys xs]

theorem parseNatAux_natRepr (n : Nat) : ∀ acc : Nat,
    parseNatAux acc (natRepr n) = some (acc * 10 ^ (natRepr n).length + n) := by
  induction n using Nat.strong_induction_on with
  | _ n ih =>
    intro acc
    by_cases h : n < 10
    · rw [natRepr_small n h]
      simp [parseNatAux, digitVal_digitChar n h]
    · rw [natRepr_shift n (by omega), parseNatAux_append]
      rw [ih (n / 10) (Nat.div_lt_self (by omega) (by omega)) acc]
      simp only [parseNatAux, digitVal_digitChar (n % 10) (by omega)]
      congr 1
      rw [List.length_append, List.length_singleton, pow_succ]
      have hdm : n / 10 * 10 + n % 10 = n := by omega
      calc (acc * 10 ^ (natRepr (n / 10)).length + n / 10) * 10 + n % 10
          = acc * (10 ^ (natRepr (n / 10)).length * 10) + (n / 10 * 10 + n % 10) := by ring
        _ = acc * (10 ^ (natRepr (n / 10)).length * 10) + n := by rw [hdm]

theorem parseNatDigits_natRepr (n : Nat) : parseNatDigits (natRepr n) = some n := by
  have h := parseNatAux_natRepr n 0
  simp only [Nat.zero_mul, Nat.zero_add] at h
  simp [parseNatDigits, List.isEmpty_iff, natRepr_ne_nil n, h]

theorem splitLast_none : ∀ cs : List Char, (∀ c ∈ cs, c ≠ '_') →
    splitLastUnderscore cs = none
  | [], _ => rfl
  | c :: cs, h => by
    have hr := splitLast_none cs (fun x hx => h x (by simp [hx]))
    have hc : ¬ c = '_' := h c (by simp)
    simp [splitLastUnderscore, hr, hc]

theorem splitLast_append (ds : List Char) (hd : ∀ c ∈ ds, c ≠ '_') :
    ∀ xs : List Char, splitLastUnderscore (xs ++ '_' :: ds) = some (xs, ds)
  | [] => by
    simp [splitLastUnderscore, splitLast_none ds hd]
  | x :: xs => by
    simp [splitLastUnderscore, splitLast_append ds hd xs]

theorem keyToPredicate_predicateToKey (p : PredicateSym) :
    keyToPredicate (predicateToKey p) = some p := by
  have hd : ∀ c ∈ natRepr p.arity, c ≠ '_' := by
    intro c hc he
    have h2 := natRepr_digits p.arity c hc
    rw [he] at h2
    exact absurd h2 (by decide)
  unfold keyToPredicate predicateToKey
  rw [show (String.mk (p.symbol.data ++ '_' :: natRepr p.arity)).data =
    p.symbol.data ++ '_' :: natRepr p.arity from rfl]
  rw [splitLast_append _ hd p.symbol.data]
  simp [parseNatDigits_natRepr]

theorem predicateToKey_inj (p q : PredicateSym)
    (h : predicateToKey p = predicateToKey q) : p = q := by
  have h1 := keyToPredicate_predicateToKey p
  rw [h, keyToPredicate_predicateToKey q] at h1
  exact (Option.some_inj.mp h1).symm

theorem rowOfFact_ground (a : Atom) (h : a.ground = true) :
    rowOfFact a = some ⟨predicateToKey a.predicate, atomHashOf a, atomArgsTokens a⟩ := by
  simp [rowOfFact, atomToRow_of_ground a h]

theorem rowOfFact_notground (a : Atom) (h : a.ground = false) :
    rowOfFact a = none := by
  simp [rowOfFact, atomToRow_of_notground a h]

theorem addFact_row_sub (s : Store) (a : Atom) :
    ∀ r ∈ (addFact s a).1, r ∈ s ∨ (a.ground = true ∧
      r = ⟨predicateToKey a.predicate, atomHashOf a, atomArgsTokens a⟩) := by
  intro r hr
  cases hg : a.ground with
  | true =>
    rw [addFact, atomToRow_of_ground a hg] at hr
    by_cases hm : hashMem s (atomHashOf a) = true
    · simp [hm] at hr
      exact Or.inl hr
    · rw [Bool.not_eq_true] at hm
      simp [hm] at hr
      rcases hr with hr | hr
      · exact Or.inl hr
      · exact Or.inr ⟨rfl, hr⟩
  | false =>
    rw [addFact, atomToRow_of_notground a hg] at hr
    exact Or.inl hr

theorem hashMem_addFact_mono (s : Store) (a : Atom) (h : Int) (hm : hashMem s h = true) :
    hashMem (addFact s a).1 h = true := by
  rw [addFact]
  cases hr : atomToRowForInsert a with
  | error e => exact hm
  | ok v =>
    by_cases hm2 : hashMem s v.1 = true
    · simp [hm2]
      exact hm
    · rw [Bool.not_eq_true] at hm2
      simp only [hm2, Bool.false_eq_true, if_false]
      rw [hashMem_append, hm]
      rfl

theorem hashMem_addFact_self (s : Store) (a : Atom) (hg : a.ground = true) :
    hashMem (addFact s a).1 (atomHashOf a) = true := by
  rw [addFact, atomToRow_of_ground a hg]
  by_cases hm : hashMem s (atomHashOf a) = true
  · simp [hm]
  · rw [Bool.not_eq_true] at hm
    simp only [hm, Bool.false_eq_true, if_false]
    rw [hashMem_append]
    simp [hashMem]

theorem hashMem_foldl_addFact : ∀ (L : List Atom) (s : Store) (h : Int),
    hashMem s h = true →
    hashMem (L.foldl (fun s a => (addFact s a).1) s) h = true
  | [], _, _, hm => hm
  | a :: L, s, h, hm => by
    rw [List.foldl_cons]
    exact hashMem_foldl_addFact L _ h (hashMem_addFact_mono s a h hm)

theorem storeOfFacts_rows : ∀ (L : List Atom) (s0 : Store),
    ∀ r ∈ L.foldl (fun s a => (addFact s a).1) s0,
      r ∈ s0 ∨ ∃ a ∈ L, a.ground = true ∧
        r = ⟨predicateToKey a.predicate, atomHashOf a, atomArgsTokens a⟩
  | [], s0 => by simp
  | a :: L, s0 => by
    intro r hr
    rw [List.foldl_cons] at hr
    rcases storeOfFacts_rows L (addFact s0 a).1 r hr with h | ⟨b, hb, hgb, he⟩
    · rcases addFact_row_sub s0 a r h with h2 | ⟨hg, he⟩
      · exact Or.inl h2
      · exact Or.inr ⟨a, by simp, hg, he⟩
    · exact Or.inr ⟨b, by simp [hb], hgb, he⟩

theorem storeOfFacts_cover : ∀ (L : List Atom) (s0 : Store) (a : Atom), a ∈ L →
    a.ground = true →
    hashMem (L.foldl (fun s b => (addFact s b).1) s0) (atomHashOf a) = true
  | [], _, a, ha, _ => by simp at ha
  | b :: L, s0, a, ha, hg => by
    rw [List.foldl_cons]
    rcases List.mem_cons.mp ha with rfl | ha2
    · exact hashMem_foldl_addFact L _ _ (hashMem_addFact_self s0 a hg)
    · exact storeOfFacts_cover L (addFact s0 b).1 a ha2 hg

theorem hashMem_insertRow (s : Store) (r : Row) (h : Int) :
    hashMem (insertRow s r) h = (hashMem s h || (r.atomHash == h)) := by
  unfold insertRow
  by_cases hm : hashMem s r.atomHash = true
  · rw [if_pos hm]
    by_cases he : r.atomHash = h
    · rw [← he, hm]
      simp
    · have : (r.atomHash == h) = false := by simpa using he
      rw [this, Bool.or_false]
  · rw [Bool.not_eq_true] at hm
    rw [if_neg (by simp [hm]), hashMem_append]
    congr 1
    simp [hashMem]

theorem hashMem_foldl_insertRow : ∀ (R : List Row) (s : Store) (h : Int),
    hashMem (R.foldl insertRow s) h = (hashMem s h || R.any fun r => r.atomHash == h)
  | [], s, h => by simp
  | r :: R, s, h => by
    rw [List.foldl_cons, hashMem_foldl_insertRow R _ h, hashMem_insertRow]
    simp [Bool.or_assoc]

theorem mapME_ok_map {α β : Type} (f : α → Except String β) (g : α → β) :
    ∀ xs : List α, (∀ x ∈ xs, f x = .ok (g x)) → mapME f xs = .ok (xs.map g)
  | [], _ => rfl
  | x :: xs, h => by
    have h0 : f x = .ok (g x) := h x (by simp)
    have hr := mapME_ok_map f g xs (fun y hy => h y (by simp [hy]))
    rw [mapME, h0]
    simp only [exceptBind_ok]
    rw [hr]
    simp only [exceptBind_ok]
    rfl

theorem mapME_ok_exists {α β : Type} (f : α → Except String β) :
    ∀ xs : List α, (∀ x ∈ xs, ∃ y, f x = .ok y) →
    ∃ ys, mapME f xs = .ok ys ∧
      (∀ y ∈ ys, ∃ x ∈ xs, f x = .ok y) ∧
      (∀ x ∈ xs, ∃ y ∈ ys, f x = .ok y)
  | [], _ => ⟨[], rfl, by simp, by simp⟩
  | x :: xs, h => by
    obtain ⟨y0, hy0⟩ := h x (by simp)
    obtain ⟨ys, hys, hback, hfwd⟩ := mapME_ok_exists f xs (fun z hz => h z (by simp [hz]))
    refine ⟨y0 :: ys, ?_, ?_, ?_⟩
    · rw [mapME, hy0]
      simp only [exceptBind_ok]
      rw [hys]
      simp only [exceptBind_ok]
    · intro y hy
      rcases List.mem_cons.mp hy with rfl | hy2
      · exact ⟨x, by simp, hy0⟩
      · obtain ⟨z, hz, hfz⟩ := hback y hy2
        exact ⟨z, by simp [hz], hfz⟩
    · intro z hz
      rcases List.mem_cons.mp hz with rfl | hz2
      · exact ⟨y0, by simp, hy0⟩
      · obtain ⟨y, hy, hfy⟩ := hfwd z hz2
        exact ⟨y, by simp [hy], hfy⟩

theorem mem_distinct : ∀ (l : List String) (x : String), x ∈ distinct l ↔ x ∈ l
  | [], x => by simp [distinct]
  | k :: l, x => by
    simp only [distinct, List.mem_cons, List.mem_filter]
    constructor
    · rintro (rfl | ⟨hm, _⟩)
      · exact Or.inl rfl
      · exact Or.inr ((mem_distinct l x).mp hm)
    · rintro (rfl | hm)
      · exact Or.inl rfl
      · by_cases he : x = k
        · exact Or.inl he
        · exact Or.inr ⟨(mem_distinct l x).mpr hm, by simp [he]⟩

theorem strLtCore_total : ∀ as bs : List Char,
    strLtCore as bs = true ∨ as = bs ∨ strLtCore bs as = true
  | [], [] => Or.inr (Or.inl rfl)
  | [], _ :: _ => Or.inl rfl
  | _ :: _, [] => Or.inr (Or.inr rfl)
  | a :: as, b :: bs => by
    rcases Nat.lt_trichotomy a.toNat b.toNat with h | h | h
    · left
      simp [strLtCore, h]
    · have hab : a = b := char_toNat_inj a b h
      subst hab
      rcases strLtCore_total as bs with h2 | h2 | h2
      · left
        simp [strLtCore, h2]
      · right
        left
        rw [h2]
      · right
        right
        simp [strLtCore, h2]
    · right
      right
      simp [strLtCore, h]

theorem strLtCore_trans : ∀ as bs cs : List Char, strLtCore as bs = true →
    strLtCore bs cs = true → strLtCore as cs = true
  | [], [], _, h1, _ => by simp [strLtCore] at h1
  | [], _ :: _, [], _, h2 => by simp [strLtCore] at h2
  | [], _ :: _, _ :: _, _, _ => rfl
  | _ :: _, [], _, h1, _ => by simp [strLtCore] at h1
  | _ :: _, _ :: _, [], _, h2 => by simp [strLtCore] at h2
  | a :: as, b :: bs, c :: cs, h1, h2 => by
    simp only [strLtCore] at h1 h2 ⊢
    by_cases hab : a.toNat < b.toNat <;> by_cases hbc : b.toNat < c.toNat
    · simp [show a.toNat < c.toNat by omega]
    · rw [if_neg hbc] at h2
      by_cases he : b.toNat = c.toNat
      · simp [show a.toNat < c.toNat by omega]
      · rw [if_neg he] at h2
        simp at h2
    · rw [if_neg hab] at h1
      by_cases he : a.toNat = b.toNat
      · simp [show a.toNat < c.toNat by omega]
      · rw [if_neg he] at h1
        simp at h1
    · rw [if_neg hab] at h1
      rw [if_neg hbc] at h2
      by_cases he1 : a.toNat = b.toNat
      · rw [if_pos he1] at h1
        by_cases he2 : b.toNat = c.toNat
        · rw [if_pos he2] at h2
          rw [if_neg (by omega), if_pos (by omega)]
          exact strLtCore_trans as bs cs h1 h2
        · rw [if_neg he2] at h2
          simp at h2
      · rw [if_neg he1] at h1
        simp at h1

theorem predLe_total (a b : PredicateSym) : predLe a b ∨ predLe b a := by
  rcases strLtCore_total a.symbol.data b.symbol.data with h | h | h
  · exact Or.inl (Or.inl h)
  · have hs : a.symbol = b.symbol := by
      rw [← show String.mk a.symbol.data = a.symbol from rfl,
        ← show String.mk b.symbol.data = b.symbol from rfl, h]
    rcases Nat.le_total a.arity b.arity with h2 | h2
    · exact Or.inl (Or.inr ⟨hs, h2⟩)
    · exact Or.inr (Or.inr ⟨hs.symm, h2⟩)
  · exact Or.inr (Or.inl h)

theorem predLe_trans (a b c : PredicateSym) (h1 : predLe a b) (h2 : predLe b c) :
    predLe a c := by
  rcases h1 with h1 | ⟨hs1, ha1⟩
  · rcases h2 with h2 | ⟨hs2, _⟩
    · exact Or.inl (strLtCore_trans _ _ _ h1 h2)
    · left
      rw [strLtB] at h1 ⊢
      rw [← hs2]
      exact h1
  · rcases h2 with h2 | ⟨hs2, ha2⟩
    · left
      rw [strLtB] at h2 ⊢
      rw [hs1]
      exact h2
    · exact Or.inr ⟨hs1.trans hs2, ha1.trans ha2⟩

theorem stableAtom_list : ∀ args : List BaseTerm,
    (args.all fun t => match t with
      | .const c => stableConst c
      | .var _ => false) = true →
    stableList (args.filterMap termConst) = true
  | [], _ => rfl
  | .const c :: rest, h => by
    simp only [List.all_cons, Bool.and_eq_true] at h
    have hr := stableAtom_list rest h.2
    simp only [List.filterMap_cons, termConst]
    rw [stableList, h.1, hr]
    rfl
  | .var v :: rest, h => by
    simp only [List.all_cons, Bool.and_eq_true] at h
    exact absurd h.1 (by simp)

theorem args_map_const : ∀ args : List BaseTerm,
    (args.all fun t => (termConst t).isSome) = true →
    (args.filterMap termConst).map BaseTerm.const = args
  | [], _ => rfl
  | .const c :: rest, h => by
    simp only [List.all_cons, Bool.and_eq_true] at h
    simp only [List.filterMap_cons, termConst, List.map_cons]
    rw [args_map_const rest h.2]
  | .var v :: rest, h => by
    simp only [List.all_cons, Bool.and_eq_true, termConst] at h
    exact absurd h.1 (by simp)

theorem marshalAtomTokens_ground (a : Atom) (hg : a.ground = true) :
    marshalAtomTokens a = .ok (atomBodyTokens a) := by
  rw [ground_iff_all_const] at hg
  rw [marshalAtomTokens, constArgs_of_ground a.args hg]
  rfl

theorem unmarshal_atomObject (g : Nat) (p : PredicateSym) (cs : List Constant)
    (rest : List JToken) (hst : stableList cs = true)
    (hlen : (marshalConstList cs).length < g) :
    unmarshalAtomTokens (g + 4) (atomHeaderTokens p ++
        (marshalConstList cs ++ JToken.endArray :: JToken.endObject :: rest)) =
      .ok (⟨p, cs.map .const⟩, rest) := by
  show unmarshalAtomFields (g + 4) (JToken.jstr "predicate" :: JToken.beginObject :: JToken.jstr "symbol" ::
    JToken.jstr p.symbol :: JToken.jstr "arity" :: JToken.jint p.arity :: JToken.endObject :: JToken.jstr "args" ::
    JToken.beginArray :: (marshalConstList cs ++ JToken.endArray :: JToken.endObject :: rest)) "" 0 [] = _
  rw [unmarshalAtomFields]
  show (do
    let (sym1, ar1, rest2) ← unmarshalPredFields (g + 3) (JToken.jstr "symbol" :: JToken.jstr p.symbol ::
      JToken.jstr "arity" :: JToken.jint p.arity :: JToken.endObject :: JToken.jstr "args" :: JToken.beginArray ::
      (marshalConstList cs ++ JToken.endArray :: JToken.endObject :: rest)) "" 0
    unmarshalAtomFields (g + 3) rest2 sym1 ar1 []) = _
  rw [unmarshalPredFields]
  show (do
    let (sym1, ar1, rest2) ← unmarshalPredFields (g + 2) (JToken.jstr "arity" :: JToken.jint p.arity ::
      JToken.endObject :: JToken.jstr "args" :: JToken.beginArray ::
      (marshalConstList cs ++ JToken.endArray :: JToken.endObject :: rest)) (tokString (JToken.jstr p.symbol)) 0
    unmarshalAtomFields (g + 3) rest2 sym1 ar1 []) = _
  rw [unmarshalPredFields]
  show (do
    let (sym1, ar1, rest2) ← unmarshalPredFields (g + 1) (JToken.endObject :: JToken.jstr "args" ::
      JToken.beginArray :: (marshalConstList cs ++ JToken.endArray :: JToken.endObject :: rest))
      (tokString (JToken.jstr p.symbol)) (tokInt (JToken.jint p.arity)).toNat
    unmarshalAtomFields (g + 3) rest2 sym1 ar1 []) = _
  rw [unmarshalPredFields]
  show unmarshalAtomFields (g + 3) (JToken.jstr "args" :: JToken.beginArray ::
    (marshalConstList cs ++ JToken.endArray :: JToken.endObject :: rest))
    (tokString (JToken.jstr p.symbol)) (tokInt (JToken.jint p.arity)).toNat [] = _
  rw [unmarshalAtomFields]
  show (do
    let (xs, rest2) ← unmarshalListElems (g + 2)
      (marshalConstList cs ++ JToken.endArray :: JToken.endObject :: rest)
    match rest2 with
    | JToken.endArray :: rest3 =>
      unmarshalAtomFields (g + 2) rest3 (tokString (JToken.jstr p.symbol))
        (tokInt (JToken.jint p.arity)).toNat ([] ++ xs.map BaseTerm.const)
    | _ => .error "expected args array end") = _
  rw [stable_roundtrip_list cs hst (g + 2) (JToken.endObject :: rest) (by omega)]
  simp only [exceptBind_ok]
  show unmarshalAtomFields (g + 2) (JToken.endObject :: rest) (tokString (JToken.jstr p.symbol))
    (tokInt (JToken.jint p.arity)).toNat ([] ++ cs.map BaseTerm.const) = _
  rw [unmarshalAtomFields]
  simp [tokString, tokInt]

theorem unmarshalAtom_argsTokens (p : PredicateSym) (a : Atom)
    (hg : a.ground = true) (hs : stableAtom a = true) :
    unmarshalAtom p (atomArgsTokens a) = .ok ⟨p, a.args⟩ := by
  have hstable : stableList (atomArgsConsts a) = true := stableAtom_list a.args hs
  have harr : atomArgsTokens a = .beginArray ::
      (marshalConstList (atomArgsConsts a) ++ [.endArray]) := rfl
  rw [harr, unmarshalAtom]
  rw [stable_roundtrip_list (atomArgsConsts a) hstable
    ((JToken.beginArray ::
      (marshalConstList (atomArgsConsts a) ++ [JToken.endArray])).length + 1)
    [] (by simp; omega)]
  rw [ground_iff_all_const] at hg
  simp [atomArgsConsts, args_map_const a.args hg]

theorem batchInsert_noFailure (s : Store) (facts : List Atom) :
    batchInsertFacts noFailure s facts =
      .ok ((facts.filterMap rowOfFact).foldl insertRow s) := by
  simp only [batchInsertFacts]
  by_cases he : (facts.filterMap rowOfFact).isEmpty = true
  · rw [if_pos he]
    rw [List.isEmpty_iff] at he
    rw [he]
    rfl
  · rw [if_neg (by simp [he])]
    rw [txExecBatches_ok noFailure _ 0 s (fun j _ => rfl), foldl_execBatch_flatten,
      chunksOf_flatten]

theorem readFromLoop_header (failAt : Nat → Bool) (f : Nat) (s : Store) (p : PredicateSym)
    (X : List JToken) (batch : List Atom) :
    readFromLoop failAt (f + 1) s (atomHeaderTokens p ++ X) batch = (do
      let (a, rest) ← unmarshalAtomTokens f (atomHeaderTokens p ++ X)
      if (batch ++ [a]).length ≥ batchSize then do
        let s1 ← batchInsertFacts failAt s (batch ++ [a])
        readFromLoop failAt f s1 rest []
      else readFromLoop failAt f s rest (batch ++ [a])) := rfl

theorem readFromLoop_spec : ∀ (as batch : List Atom) (s : Store) (fuel : Nat),
    (∀ a ∈ as, a.ground = true ∧ stableAtom a = true) →
    (bodiesTokens as).length < fuel → batch.length < batchSize →
    readFromLoop noFailure fuel s (bodiesTokens as ++ [.endArray]) batch =
      .ok (((batch ++ as).filterMap rowOfFact).foldl insertRow s)
  | [], batch, s, fuel, _, hf, _ => by
    obtain ⟨f, rfl⟩ : ∃ f, fuel = f + 1 := ⟨fuel - 1, by omega⟩
    show readFromLoop noFailure (f + 1) s (.endArray :: []) batch = _
    rw [readFromLoop]
    by_cases he : batch.isEmpty = true
    · rw [if_pos he]
      rw [List.isEmpty_iff] at he
      rw [he]
      rfl
    · rw [if_neg (by simp [he]), batchInsert_noFailure]
      rw [List.append_nil]
  | a :: as, batch, s, fuel, hg, hf, hb => by
    have hga := hg a (by simp)
    have hlb : (atomBodyTokens a).length =
        (marshalConstList (atomArgsConsts a)).length + 12 := by
      simp [atomBodyTokens, atomHeaderTokens]
    have hftot : (atomBodyTokens a).length + (bodiesTokens as).length < fuel := by
      have : bodiesTokens (a :: as) = atomBodyTokens a ++ bodiesTokens as := by
        simp [bodiesTokens]
      rw [this] at hf
      simpa using hf
    obtain ⟨f, rfl⟩ : ∃ f, fuel = f + 1 := ⟨fuel - 1, by omega⟩
    obtain ⟨g, hgf⟩ : ∃ g, f = g + 4 := ⟨f - 4, by omega⟩
    have hmg : (marshalConstList (atomArgsConsts a)).length < g := by omega
    have hstream : bodiesTokens (a :: as) ++ [.endArray] =
        atomHeaderTokens a.predicate ++ (marshalConstList (atomArgsConsts a) ++
          JToken.endArray :: JToken.endObject :: (bodiesTokens as ++ [.endArray])) := by
      simp [bodiesTokens, atomBodyTokens, List.append_assoc]
    rw [hstream, readFromLoop_header]
    rw [hgf, unmarshal_atomObject g a.predicate (atomArgsConsts a) _
      (stableAtom_list a.args hga.2) hmg]
    simp only [exceptBind_ok]
    have hback : (⟨a.predicate, (atomArgsConsts a).map BaseTerm.const⟩ : Atom) = a := by
      have h2 : a.ground = true := hga.1
      rw [ground_iff_all_const] at h2
      show (⟨a.predicate, (a.args.filterMap termConst).map BaseTerm.const⟩ : Atom) = a
      rw [args_map_const a.args h2]
    rw [hback]
    have hsplit : batch ++ a :: as = (batch ++ [a]) ++ as := by simp
    by_cases hfull : (batch ++ [a]).length ≥ batchSize
    · rw [if_pos hfull, batchInsert_noFailure]
      simp only [exceptBind_ok]
      rw [readFromLoop_spec as [] _ (g + 4) (fun x hx => hg x (by simp [hx]))
        (by omega) (by simp [batchSize])]
      rw [hsplit]
      simp [List.filterMap_append, List.foldl_append, List.filterMap_cons,
        rowOfFact_ground a hga.1]
    · rw [if_neg hfull]
      rw [readFromLoop_spec as (batch ++ [a]) s (g + 4) (fun x hx => hg x (by simp [hx]))
        (by omega) (by simp at hfull ⊢; omega)]
      rw [hsplit]

theorem any_filterMap_rowOfFact (h : Int) : ∀ as : List Atom,
    (∀ a ∈ as, a.ground = true) →
    ((as.filterMap rowOfFact).any fun r => r.atomHash == h) =
      as.any fun b => atomHashOf b == h
  | [], _ => rfl
  | a :: as, hg => by
    rw [List.filterMap_cons, rowOfFact_ground a (hg a (by simp))]
    simp only [List.any_cons]
    rw [any_filterMap_rowOfFact h as (fun x hx => hg x (by simp [hx]))]

theorem hashMem_storeOfFacts (L : List Atom) (h : Int) :
    hashMem (storeOfFacts L) h = L.any fun a => a.ground && (atomHashOf a == h) := by
  by_cases hr : (L.any fun a => a.ground && (atomHashOf a == h)) = true
  · rw [hr]
    obtain ⟨a, ha, hpa⟩ := List.any_eq_true.mp hr
    rw [Bool.and_eq_true] at hpa
    have he : atomHashOf a = h := by simpa using hpa.2
    rw [← he]
    exact storeOfFacts_cover L [] a ha hpa.1
  · rw [Bool.not_eq_true] at hr
    rw [hr]
    by_contra hm
    rw [Bool.not_eq_false] at hm
    obtain ⟨r, hrmem, hrh⟩ := List.any_eq_true.mp hm
    rcases storeOfFacts_rows L [] r hrmem with h2 | ⟨a, ha, hga, he⟩
    · simp at h2
    · have : (L.any fun a => a.ground && (atomHashOf a == h)) = true := by
        refine List.any_eq_true.mpr ⟨a, ha, ?_⟩
        rw [hga]
        rw [he] at hrh
        simpa using hrh
      rw [hr] at this
      exact absurd this (by simp)

theorem row_decode (L : List Atom) (hL : ∀ a ∈ L, a.ground = true ∧ stableAtom a = true)
    (p : PredicateSym) (r : Row)
    (hr : r ∈ (storeOfFacts L).filter fun r2 => r2.predicate == predicateToKey p) :
    ∃ a, a ∈ L ∧ a.ground = true ∧ stableAtom a = true ∧ a.predicate = p ∧
      r.atomHash = atomHashOf a ∧ unmarshalAtom p r.args = .ok a := by
  have hrS : r ∈ storeOfFacts L := (List.mem_filter.mp hr).1
  have hpred : r.predicate = predicateToKey p := by
    have h2 := (List.mem_filter.mp hr).2
    simpa using h2
  rcases storeOfFacts_rows L [] r hrS with h0 | ⟨a, ha, hga, he⟩
  · simp at h0
  · have hsa := (hL a ha).2
    have hpa : predicateToKey a.predicate = predicateToKey p := by
      rw [he] at hpred
      exact hpred
    have hppa : a.predicate = p := predicateToKey_inj _ _ hpa
    refine ⟨a, ha, hga, hsa, hppa, ?_, ?_⟩
    · rw [he]
    · rw [he]
      show unmarshalAtom p (atomArgsTokens a) = .ok a
      rw [unmarshalAtom_argsTokens p a hga hsa, ← hppa]

theorem getFacts_spec (L : List Atom)
    (hL : ∀ a ∈ L, a.ground = true ∧ stableAtom a = true) (p : PredicateSym) :
    ∃ ys, getFactsForPred (storeOfFacts L) p = .ok ys ∧
      (∀ b ∈ ys, b ∈ L ∧ b.ground = true ∧ stableAtom b = true) ∧
      (∀ r ∈ (storeOfFacts L).filter (fun r2 => r2.predicate == predicateToKey p),
        ∃ b ∈ ys, r.atomHash = atomHashOf b) := by
  have hex : ∀ r ∈ (storeOfFacts L).filter (fun r2 => r2.predicate == predicateToKey p),
      ∃ y, unmarshalAtom p r.args = .ok y := by
    intro r hr
    obtain ⟨a, _, _, _, _, _, hdec⟩ := row_decode L hL p r hr
    exact ⟨a, hdec⟩
  obtain ⟨ys, hys, hback, hfwd⟩ := mapME_ok_exists (fun r : Row => unmarshalAtom p r.args) _ hex
  refine ⟨ys, hys, ?_, ?_⟩
  · intro b hb
    obtain ⟨r, hr, hdecb⟩ := hback b hb
    obtain ⟨a, haL, hag, has, _, _, hdeca⟩ := row_decode L hL p r hr
    have hba : b = a := by
      rw [hdecb] at hdeca
      exact Except.ok.inj hdeca
    rw [hba]
    exact ⟨haL, hag, has⟩
  · intro r hr
    obtain ⟨y, hy, hdecy⟩ := hfwd r hr
    obtain ⟨a, _, _, _, _, hhash, hdeca⟩ := row_decode L hL p r hr
    have hya : y = a := by
      rw [hdecy] at hdeca
      exact Except.ok.inj hdeca
    exact ⟨y, hy, by rw [hya]; exact hhash⟩

/-- C8 as amended by the counterexample: for a store built by adding any
list of ground atoms over the stable codec fragment, `WriteTo` succeeds,
enumerating the predicates as `ListPredicates` sorted by symbol ascending
then arity ascending (the enumeration is sorted and is a permutation of
the predicate list), and returns the byte length of the rendered stream;
importing that stream through `ReadFrom` into a fresh empty store yields
a store that answers `Contains` exactly as the source store on every
atom.  Outside the stable fragment the round-trip fails (see the C8
counterexample with an empty Bytes argument). -/
theorem claim_C8_export_import (L : List Atom)
    (hL : ∀ a ∈ L, a.ground = true ∧ stableAtom a = true) :
    List.Sorted predLe (sortedPredicates (storeOfFacts L)) ∧
    (sortedPredicates (storeOfFacts L)).Perm (listPredicates (storeOfFacts L)) ∧
    ∃ ts S2, writeTo (storeOfFacts L) = .ok (ts, (render ts).length) ∧
      readFrom noFailure [] ts = .ok S2 ∧
      ∀ a : Atom, containsFact S2 a = containsFact (storeOfFacts L) a := by
  refine ⟨?_, ?_, ?_⟩
  · haveI h1 : IsTotal PredicateSym predLe := ⟨predLe_total⟩
    haveI h2 : IsTrans PredicateSym predLe := ⟨predLe_trans⟩
    exact List.sorted_insertionSort predLe (listPredicates (storeOfFacts L))
  · exact List.perm_insertionSort predLe (listPredicates (storeOfFacts L))
  have hgetok : ∀ p ∈ sortedPredicates (storeOfFacts L), ∃ ys,
      getFactsForPred (storeOfFacts L) p = .ok ys := by
    intro p _
    obtain ⟨ys, hys, _, _⟩ := getFacts_spec L hL p
    exact ⟨ys, hys⟩
  obtain ⟨groups, hgroups, hgback, hgfwd⟩ :=
    mapME_ok_exists (getFactsForPred (storeOfFacts L)) _ hgetok
  have hflat : ∀ b ∈ groups.flatten, b ∈ L ∧ b.ground = true ∧ stableAtom b = true := by
    intro b hb
    obtain ⟨gl, hgl, hbgl⟩ := List.mem_flatten.mp hb
    obtain ⟨p, _, hgetp⟩ := hgback gl hgl
    obtain ⟨ys, hys, hprops, _⟩ := getFacts_spec L hL p
    have hgy : gl = ys := by
      rw [hys] at hgetp
      exact (Except.ok.inj hgetp).symm
    exact hprops b (hgy ▸ hbgl)
  have hcover : ∀ h : Int, hashMem (storeOfFacts L) h = true →
      ∃ b ∈ groups.flatten, atomHashOf b = h := by
    intro h hm
    rw [hashMem] at hm
    obtain ⟨r, hrS, hrh⟩ := List.any_eq_true.mp hm
    have hrh2 : r.atomHash = h := by simpa using hrh
    rcases storeOfFacts_rows L [] r hrS with h0 | ⟨a, haL, hga, he⟩
    · simp at h0
    · have hkey : r.predicate = predicateToKey a.predicate := by rw [he]
      have hpmem : a.predicate ∈ listPredicates (storeOfFacts L) := by
        refine List.mem_filterMap.mpr ⟨r.predicate, ?_, ?_⟩
        · exact (mem_distinct _ _).mpr (List.mem_map.mpr ⟨r, hrS, rfl⟩)
        · rw [hkey]
          exact keyToPredicate_predicateToKey a.predicate
      have hpsorted : a.predicate ∈ sortedPredicates (storeOfFacts L) :=
        (List.perm_insertionSort predLe _).mem_iff.mpr hpmem
      have hrfilter : r ∈ (storeOfFacts L).filter
          (fun r2 => r2.predicate == predicateToKey a.predicate) := by
        refine List.mem_filter.mpr ⟨hrS, ?_⟩
        simp [hkey]
      obtain ⟨ys, hys, _, hcov⟩ := getFacts_spec L hL a.predicate
      obtain ⟨b, hbys, hbh⟩ := hcov r hrfilter
      obtain ⟨gl, hglmem, hgetp⟩ := hgfwd a.predicate hpsorted
      have hgy : gl = ys := by
        rw [hys] at hgetp
        exact (Except.ok.inj hgetp).symm
      refine ⟨b, List.mem_flatten.mpr ⟨gl, hglmem, ?_⟩, ?_⟩
      · rw [hgy]
        exact hbys
      · rw [← hbh]
        exact hrh2
  have hmar : ∀ b ∈ groups.flatten, marshalAtomTokens b = .ok (atomBodyTokens b) :=
    fun b hb => marshalAtomTokens_ground b (hflat b hb).2.1
  have hbodies := mapME_ok_map marshalAtomTokens atomBodyTokens groups.flatten hmar
  have hmapflat : (groups.flatten.map atomBodyTokens).flatten =
      bodiesTokens groups.flatten := by
    simp [bodiesTokens, List.flatMap_def]
  refine ⟨JToken.beginArray ::
      (groups.flatten.map atomBodyTokens).flatten ++ [JToken.endArray],
    (groups.flatten.filterMap rowOfFact).foldl insertRow [], ?_, ?_, ?_⟩
  · simp only [writeTo]
    rw [hgroups]
    simp only [exceptBind_ok]
    rw [hbodies]
    simp only [exceptBind_ok]
    rfl
  · show readFromLoop noFailure
      ((JToken.beginArray ::
        (groups.flatten.map atomBodyTokens).flatten ++ [JToken.endArray]).length + 1)
      [] ((groups.flatten.map atomBodyTokens).flatten ++ [JToken.endArray]) [] = _
    rw [hmapflat]
    rw [readFromLoop_spec groups.flatten [] [] _
      (fun b hb => ⟨(hflat b hb).2.1, (hflat b hb).2.2⟩)
      (by simp; omega) (by simp [batchSize])]
    rw [List.nil_append]
  · intro a
    cases hta : atomToRowForInsert a with
    | error e => simp [containsFact, hta]
    | ok v =>
      simp only [containsFact, hta]
      rw [hashMem_foldl_insertRow,
        any_filterMap_rowOfFact v.1 groups.flatten (fun b hb => (hflat b hb).2.1)]
      have hnil : hashMem ([] : Store) v.1 = false := rfl
      rw [hnil, Bool.false_or]
      by_cases hm : hashMem (storeOfFacts L) v.1 = true
      · rw [hm]
        obtain ⟨b, hbmem, hbh⟩ := hcover v.1 hm
        exact List.any_eq_true.mpr ⟨b, hbmem, by simp [hbh]⟩
      · rw [Bool.not_eq_true] at hm
        rw [hm]
        by_contra hco
        rw [Bool.not_eq_false] at hco
        obtain ⟨b, hbmem, hbh⟩ := List.any_eq_true.mp hco
        obtain ⟨hbL, hbg, _⟩ := hflat b hbmem
        have hmb := storeOfFacts_cover L [] b hbL hbg
        have hbh2 : atomHashOf b = v.1 := by simpa using hbh
        rw [hbh2] at hmb
        have hmb2 : hashMem (storeOfFacts L) v.1 = true := hmb
        rw [hm] at hmb2
        exact absurd hmb2 (by simp)

/-- Witness for C8: the two-fact, two-predicate store satisfies the
hypothesis and the amended round-trip theorem applies to it. -/
theorem claim_C8_export_import_witness :
    (∀ a ∈ ([⟨⟨"q", 1⟩, [.const (.num 1)]⟩,
             ⟨⟨"p", 1⟩, [.const (.str "x")]⟩] : List Atom),
      a.ground = true ∧ stableAtom a = true) ∧
    (List.Sorted predLe (sortedPredicates (storeOfFacts
        [⟨⟨"q", 1⟩, [.const (.num 1)]⟩, ⟨⟨"p", 1⟩, [.const (.str "x")]⟩])) ∧
      (sortedPredicates (storeOfFacts
        [⟨⟨"q", 1⟩, [.const (.num 1)]⟩, ⟨⟨"p", 1⟩, [.const (.str "x")]⟩])).Perm
        (listPredicates (storeOfFacts
        [⟨⟨"q", 1⟩, [.const (.num 1)]⟩, ⟨⟨"p", 1⟩, [.const (.str "x")]⟩])) ∧
      ∃ ts S2, writeTo (storeOfFacts
          [⟨⟨"q", 1⟩, [.const (.num 1)]⟩, ⟨⟨"p", 1⟩, [.const (.str "x")]⟩]) =
          .ok (ts, (render ts).length) ∧
        readFrom noFailure [] ts = .ok S2 ∧
        ∀ a : Atom, containsFact S2 a = containsFact (storeOfFacts
          [⟨⟨"q", 1⟩, [.const (.num 1)]⟩, ⟨⟨"p", 1⟩, [.const (.str "x")]⟩]) a) :=
  ⟨by decide, claim_C8_export_import _ (by decide)⟩

end FactStoreDB
